import Mathlib

set_option maxRecDepth 10000

/- Shallow embedding of the configuration merge engine implemented by
   `plugins/action/merge_vars.py` (the merge_vars action plugin).

   Python values loaded from variable files are modelled by the mutual
   inductives `Value` / `VList` / `VMap`: mappings are association lists
   kept in insertion order (Python dicts preserve insertion order and have
   unique keys), sequences are lists, scalars are null / bool / int / str.
   The Ansible loader is modelled as a finite map from file paths to parsed
   mappings, and the filesystem as finite tables of files and directories.
   Mutation is modelled by value passing; a separate explicit-heap model is
   used where Python object identity matters (the in-place literal
   application phase). -/

mutual
inductive Value where
  | null : Value
  | bool : Bool → Value
  | int : Int → Value
  | str : String → Value
  | seq : VList → Value
  | map : VMap → Value

inductive VList where
  | nil : VList
  | cons : Value → VList → VList

inductive VMap where
  | nil : VMap
  | cons : String → Value → VMap → VMap
end

mutual
/-- Structural equality test on values, the embedding of Python `==` / `!=`
on the trees handled by the plugin. -/
def veq : Value → Value → Bool
  | .null, .null => true
  | .bool a, .bool b => a == b
  | .int a, .int b => a == b
  | .str a, .str b => a == b
  | .seq a, .seq b => vleq a b
  | .map a, .map b => vmeq a b
  | _, _ => false

def vleq : VList → VList → Bool
  | .nil, .nil => true
  | .cons a as, .cons b bs => veq a b && vleq as bs
  | _, _ => false

def vmeq : VMap → VMap → Bool
  | .nil, .nil => true
  | .cons k v rest, .cons k2 v2 rest2 => k == k2 && veq v v2 && vmeq rest rest2
  | _, _ => false
end

mutual
theorem veq_iff : ∀ (a b : Value), veq a b = true ↔ a = b
  | .null, b => by cases b <;> simp [veq]
  | .bool x, b => by cases b <;> simp [veq]
  | .int x, b => by cases b <;> simp [veq]
  | .str x, b => by cases b <;> simp [veq]
  | .seq x, .null => by simp [veq]
  | .seq x, .bool y => by simp [veq]
  | .seq x, .int y => by simp [veq]
  | .seq x, .str y => by simp [veq]
  | .seq x, .seq y => by simp [veq, vleq_iff x y]
  | .seq x, .map y => by simp [veq]
  | .map x, .null => by simp [veq]
  | .map x, .bool y => by simp [veq]
  | .map x, .int y => by simp [veq]
  | .map x, .str y => by simp [veq]
  | .map x, .seq y => by simp [veq]
  | .map x, .map y => by simp [veq, vmeq_iff x y]

theorem vleq_iff : ∀ (a b : VList), vleq a b = true ↔ a = b
  | .nil, .nil => by simp [vleq]
  | .nil, .cons y ys => by simp [vleq]
  | .cons x xs, .nil => by simp [vleq]
  | .cons x xs, .cons y ys => by
      simp [vleq, veq_iff x y, vleq_iff xs ys]

theorem vmeq_iff : ∀ (a b : VMap), vmeq a b = true ↔ a = b
  | .nil, .nil => by simp [vmeq]
  | .nil, .cons k y ys => by simp [vmeq]
  | .cons k x xs, .nil => by simp [vmeq]
  | .cons k x xs, .cons k2 y ys => by
      simp [vmeq, veq_iff x y, vmeq_iff xs ys, and_assoc]
end

instance : DecidableEq Value := fun a b => decidable_of_iff _ (veq_iff a b)

instance : DecidableEq VMap := fun a b => decidable_of_iff _ (vmeq_iff a b)

instance : DecidableEq VList := fun a b => decidable_of_iff _ (vleq_iff a b)

/-- `key in d` / `d[key]` on a Python dict. -/
def vmLookup (k : String) : VMap → Option Value
  | .nil => none
  | .cons k2 v rest => if k2 = k then some v else vmLookup k rest

/-- `d[key] = v` on a Python dict: replaces the value in place if the key is
present, appends the pair otherwise (insertion order semantics). -/
def vmSet : VMap → String → Value → VMap
  | .nil, k, v => .cons k v .nil
  | .cons k2 v2 rest, k, v =>
    if k2 = k then .cons k2 v rest else .cons k2 v2 (vmSet rest k v)

def vmAppend : VMap → VMap → VMap
  | .nil, b => b
  | .cons k v rest, b => .cons k v (vmAppend rest b)

def vmKeys : VMap → List String
  | .nil => []
  | .cons k _ rest => k :: vmKeys rest

/-- Convenience constructor from a Lean list of pairs. -/
def vmOf : List (String × Value) → VMap
  | [] => .nil
  | (k, v) :: rest => .cons k v (vmOf rest)

/-- Association-list lookup for the auxiliary finite maps of the model. -/
def alookup {α : Type} : List (String × α) → String → Option α
  | [], _ => none
  | (k2, v) :: rest, k => if k2 = k then some v else alookup rest k

/-- Single-motive structural induction on `VMap` spines (the generated
eliminator of the mutual inductive family has several motives, which the
`induction` tactic does not accept). -/
theorem VMap.indOn {motive : VMap → Prop} (nil : motive .nil)
    (cons : ∀ k v rest, motive rest → motive (.cons k v rest)) :
    ∀ d, motive d
  | .nil => nil
  | .cons k v rest => cons k v rest (VMap.indOn nil cons rest)

-- Basic lemmas about the dict operations.

theorem vmLookup_vmSet_self (d : VMap) (k : String) (v : Value) :
    vmLookup k (vmSet d k v) = some v := by
  induction d using VMap.indOn with
  | nil => simp [vmSet, vmLookup]
  | cons k2 v2 rest ih =>
    by_cases h : k2 = k <;> simp [vmSet, vmLookup, h, ih]

theorem vmLookup_vmSet_other (d : VMap) (k k2 : String) (v : Value)
    (h : k2 ≠ k) : vmLookup k (vmSet d k2 v) = vmLookup k d := by
  induction d using VMap.indOn with
  | nil => simp [vmSet, vmLookup, h]
  | cons k3 v3 rest ih =>
    by_cases h3 : k3 = k2
    · subst h3
      simp [vmSet, vmLookup, h]
    · by_cases h4 : k3 = k <;> simp [vmSet, vmLookup, h3, h4, ih, Ne.symm h]

theorem vmLookup_vmAppend (a b : VMap) (k : String) :
    vmLookup k (vmAppend a b) =
      (vmLookup k a).orElse (fun _ => vmLookup k b) := by
  induction a using VMap.indOn with
  | nil => simp [vmAppend, vmLookup, Option.orElse]
  | cons k2 v rest ih =>
    by_cases h : k2 = k <;> simp [vmAppend, vmLookup, h, ih, Option.orElse]

/- ------------------------------------------------------------------ -/
/- Deep Merge Engine.                                                  -/
/- ------------------------------------------------------------------ -/

/-- Keys of the overlay that are absent from the base: the entries that
`merge_hash` inserts verbatim. -/
def newKeys (a : VMap) : VMap → VMap
  | .nil => .nil
  | .cons k v rest =>
    if (vmLookup k a).isSome then newKeys a rest else .cons k v (newKeys a rest)

mutual
/-- Modelled from the spec: `merge_hash` is imported by merge_vars.py from
`ansible.utils.vars` and its source is not part of this repository; this
definition follows the spec's Deep Merge Engine contract (§4.2): when both
sides are mappings the keys of the base keep their values unless shared,
shared keys merge recursively, overlay-only keys are inserted; in every
other case the overlay wins outright. -/
def merge : Value → Value → Value
  | .map a, .map b => .map (vmAppend (mergeShared a b) (newKeys a b))
  | _, y => y

/-- The base's entries after merging the overlay into the shared keys. -/
def mergeShared : VMap → VMap → VMap
  | .nil, _ => .nil
  | .cons k v rest, b =>
    match vmLookup k b with
    | some w => .cons k (merge v w) (mergeShared rest b)
    | none => .cons k v (mergeShared rest b)
end

/-- The dict-level merge used by the run on `hostvars_to_update` and each
loaded file (both arguments are Python dicts there). -/
def mergeVMap (a b : VMap) : VMap :=
  vmAppend (mergeShared a b) (newKeys a b)

/- ------------------------------------------------------------------ -/
/- Structural Diff (`deep_diff` in merge_vars.py).                     -/
/- ------------------------------------------------------------------ -/

abbrev DiffEntry := String × Value × Value

/-- `new_path = f"{path}.{key}" if path else str(key)`. -/
def joinPath (path key : String) : String :=
  if path = "" then key else path ++ "." ++ key

/-- Entries of the diff for keys that are present in `d2` but not in `d1`;
the missing side is recorded as Python `None` (`Value.null`). -/
def diffD2only (d1 : VMap) : VMap → String → List DiffEntry
  | .nil, _ => []
  | .cons k v2 rest, path =>
    (if (vmLookup k d1).isSome then []
     else [(joinPath path k, Value.null, v2)]) ++ diffD2only d1 rest path

mutual
/-- Entries of the diff contributed while walking the keys of `d1`: keys
missing from `d2` give one entry with `None` on the right, keys present in
both sides contribute `diffHead`. -/
def diffD1 : VMap → VMap → String → List DiffEntry
  | .nil, _, _ => []
  | .cons k v1 rest, d2, path =>
    (match vmLookup k d2 with
     | none => [(joinPath path k, v1, Value.null)]
     | some v2 => diffHead v1 v2 (joinPath path k)) ++
    diffD1 rest d2 path

/-- Contribution of a key present in both sides: recurse when both values
are dicts, record one entry when the values differ, nothing when they are
equal. -/
def diffHead : Value → Value → String → List DiffEntry
  | .map m1, .map m2, np => diffD1 m1 m2 np ++ diffD2only m1 m2 np
  | v1, v2, np => if veq v1 v2 then [] else [(np, v1, v2)]
end

/-- The `deep_diff` function of merge_vars.py.  Python iterates the set
union `d1.keys() | d2.keys()` in an unspecified order; the embedding fixes
the deterministic linearisation "keys of d1 in order, then keys only in d2
in order", which produces the same multiset of entries. -/
def deep_diff (d1 d2 : VMap) (path : String) : List DiffEntry :=
  diffD1 d1 d2 path ++ diffD2only d1 d2 path

/- ------------------------------------------------------------------ -/
/- Literal Path Applier (lines 199-211 of merge_vars.py).              -/
/- ------------------------------------------------------------------ -/

/-- The application of one literal to the target tree, following the walk of
the code: all segments but the last descend, replacing a missing or
non-dict intermediate by `{}`; the final segment is set.  The boolean is
the code's `current.get(keys[-1]) != new_value` test (an absent final key
reads as `None`). -/
def applyPathC : VMap → List String → Value → VMap × Bool
  | d, [], _ => (d, false)
  | d, [k], v => (vmSet d k v, !veq ((vmLookup k d).getD Value.null) v)
  | d, k :: k2 :: rest, v =>
    let sub : VMap :=
      match vmLookup k d with
      | some (.map m) => m
      | _ => .nil
    let r := applyPathC sub (k2 :: rest) v
    (vmSet d k (.map r.1), r.2)

/-- The value that the walk of `applyPathC` reads at the final key before
overwriting it (an absent key, or a key reached through a replaced
intermediate, reads as `None`). -/
def walkGet : VMap → List String → Value
  | _, [] => Value.null
  | d, [k] => (vmLookup k d).getD Value.null
  | d, k :: k2 :: rest =>
    walkGet (match vmLookup k d with | some (.map m) => m | _ => .nil)
      (k2 :: rest)

/-- Python `path_str.split('.')` on the character list: splitting always
yields at least one (possibly empty) segment. -/
def splitCharAux (c : Char) : List Char → List (List Char)
  | [] => [[]]
  | x :: xs =>
    match splitCharAux c xs with
    | [] => [[x]]
    | g :: gs => if x = c then [] :: g :: gs else (x :: g) :: gs

/-- `path_str.split('.')`. -/
def splitDots (s : String) : List String :=
  (splitCharAux '.' s.data).map (fun l => String.mk l)

theorem splitCharAux_ne_nil (c : Char) (l : List Char) :
    splitCharAux c l ≠ [] := by
  cases l with
  | nil => simp [splitCharAux]
  | cons x xs =>
    simp only [splitCharAux]
    cases splitCharAux c xs with
    | nil => simp
    | cons g gs =>
      by_cases h : x = c <;> simp [h]

theorem splitDots_ne_nil (s : String) : splitDots s ≠ [] := by
  have := splitCharAux_ne_nil '.' s.data
  simp [splitDots]
  intro h
  exact this h

/- ------------------------------------------------------------------ -/
/- Filesystem, loader, and option surface.                             -/
/- ------------------------------------------------------------------ -/

/-- Lexicographic code-point comparison, the embedding of Python string
ordering used by `list.sort()`. -/
def charListLe : List Char → List Char → Bool
  | [], _ => true
  | _ :: _, [] => false
  | x :: xs, y :: ys => if x = y then charListLe xs ys else decide (x < y)

def strLe (a b : String) : Bool := charListLe a.data b.data

def insertSorted (x : String) : List String → List String
  | [] => [x]
  | y :: ys => if strLe x y then x :: y :: ys else y :: insertSorted x ys

/-- `dirfiles.sort()` (insertion sort; Python's sort is stable, and equal
strings are indistinguishable, so any stable sort is a faithful model). -/
def sortStrings (l : List String) : List String := l.foldr insertSorted []

/-- `path.splitext(filename)[-1][1:]`: the extension after the last dot of
the basename, without the dot; empty when the basename has no dot preceded
by a non-dot character (Python treats leading dots of the basename as part
of the root). -/
def splitextExt (p : String) : String :=
  let base := (p.data.reverse.takeWhile (fun c => c ≠ '/')).reverse
  let revBase := base.reverse
  if revBase.contains '.' then
    let after := (revBase.takeWhile (fun c => c ≠ '.')).reverse
    let before := ((revBase.dropWhile (fun c => c ≠ '.')).drop 1).reverse
    if before.any (fun c => c ≠ '.') then String.mk after else ""
  else ""

/-- The extension filter of line 142: `(not self.valid_extensions) or
path.splitext(filename)[-1][1:] in self.valid_extensions`; a missing option
and an empty list are both falsy, so both disable filtering. -/
def extOk (exts : Option (List String)) (filename : String) : Bool :=
  match exts with
  | none => true
  | some l => l.isEmpty || l.contains (splitextExt filename)

/-- The filesystem together with the Structured Loader collaborator:
`files` maps each existing regular file to the mapping the loader parses
from it, `dirs` maps each existing directory to the names of its direct
entries. -/
structure FS where
  files : List (String × VMap)
  dirs : List (String × List String)

def isfile (fs : FS) (p : String) : Bool := (alookup fs.files p).isSome

def isdir (fs : FS) (p : String) : Bool := (alookup fs.dirs p).isSome

def listdir (fs : FS) (p : String) : List String := (alookup fs.dirs p).getD []

def fsLoad (fs : FS) (p : String) : Option VMap := alookup fs.files p

/-- `os.path.join(source, filename)` for the relative names produced by
`listdir`. -/
def pathJoin (d f : String) : String := d ++ "/" ++ f

inductive RunErr where
  | configError : RunErr
  | sourceNotFound : String → RunErr
  | loaderError : String → RunErr
  | invalidPath : RunErr
deriving DecidableEq

/-- The Diagnostic Sink messages the run can emit. -/
inductive Diag where
  | missingIgnored : String → Diag
  | extFiltered : String → Diag
  | extraVarsConflictFile : String → Diag
  | extraVarsConflictLiteral : String → Diag
deriving DecidableEq

structure Literal where
  path : String
  value : Value

/-- The option surface of the action (unknown option keys are excluded by
typing; no claim concerns the unknown-key validation). -/
structure Args where
  files : Option (List String)
  literals : Option (List Literal)
  ignore_missing_files : Bool
  extensions : Option (List String)

/- ------------------------------------------------------------------ -/
/- Source Resolver (lines 126-137).                                    -/
/- ------------------------------------------------------------------ -/

/-- State of the source-resolution loop.  Line 126 binds
`self._result['ansible_included_var_files']` and the local `files` to the
same list object; the directory branch (line 133) rebinds `files` to a
fresh concatenation, after which the two names denote different objects.
`files`/`res0` model the two references and `aliased` whether they still
denote the same object. -/
structure ResolveSt where
  files : List String
  res0 : List String
  aliased : Bool
  diags : List Diag
deriving DecidableEq

def initResolveSt : ResolveSt := ⟨[], [], true, []⟩

/-- The resolution loop: existing files are appended (mutating both aliases
while they coincide), existing directories are expanded one level to their
file children sorted lexicographically (rebinding `files` only), missing
entries are skipped with a diagnostic when tolerated and abort the run
otherwise. -/
def resolveList (fs : FS) (ign : Bool) :
    List String → ResolveSt → ResolveSt × Option RunErr
  | [], st => (st, none)
  | s :: rest, st =>
    if isfile fs s then
      resolveList fs ign rest
        { st with files := st.files ++ [s],
                  res0 := if st.aliased then st.res0 ++ [s] else st.res0 }
    else if isdir fs s then
      let dirfiles :=
        sortStrings (((listdir fs s).map (pathJoin s)).filter (fun p => isfile fs p))
      resolveList fs ign rest { st with files := st.files ++ dirfiles, aliased := false }
    else if ign then
      resolveList fs ign rest { st with diags := st.diags ++ [.missingIgnored s] }
    else (st, some (.sourceNotFound s))

/- ------------------------------------------------------------------ -/
/- File loading and merging (lines 140-175).                           -/
/- ------------------------------------------------------------------ -/

structure LoadSt where
  iterFiles : List String
  res0 : List String
  aliased : Bool
  hostvars : VMap
  orig : VMap
  loads : List String
  diags : List Diag
deriving DecidableEq

def initLoadSt (r : ResolveSt) : LoadSt :=
  ⟨r.files, r.res0, r.aliased, .nil, .nil, [], r.diags⟩

/-- Lines 153-157: for each top-level key of the loaded file not yet in
`hostvars_to_update` but present in `task_vars`, record the baseline value
in `hostvars_to_update_files_orig` (an alias) and seed a deep copy into
`hostvars_to_update`. -/
def seedAll (tv : VMap) : VMap → VMap → VMap → VMap × VMap
  | .nil, hv, orig => (hv, orig)
  | .cons k _ rest, hv, orig =>
    if (vmLookup k hv).isNone then
      match vmLookup k tv with
      | some v => seedAll tv rest (vmSet hv k v) (vmSet orig k v)
      | none => seedAll tv rest hv orig
    else seedAll tv rest hv orig

/-- The body of the `for filename in files` loop: extension filter, load,
seed, merge, and the append of the loaded filename to the result list
(which also extends the iterated list when the two are still the same
object).  `loads` instruments the loader invocations. -/
def loadStep (fs : FS) (exts : Option (List String)) (tv : VMap)
    (st : LoadSt) (filename : String) : LoadSt × Option RunErr :=
  if extOk exts filename then
    match fsLoad fs filename with
    | none => (st, some (.loaderError filename))
    | some cfv =>
      let so := seedAll tv cfv st.hostvars st.orig
      let hv := mergeVMap so.1 cfv
      ({ st with hostvars := hv, orig := so.2,
                 loads := st.loads ++ [filename],
                 res0 := st.res0 ++ [filename],
                 iterFiles :=
                   if st.aliased then st.iterFiles ++ [filename] else st.iterFiles },
       none)
  else
    ({ st with diags := st.diags ++ [.extFiltered filename] }, none)

inductive LoadExit where
  | done : LoadExit
  | fuelOut : LoadExit
  | failed : RunErr → LoadExit
deriving DecidableEq

/-- The `for filename in files` loop itself.  Python's list iterator is
index-based and observes elements appended during iteration, so the loop is
modelled by an index into the current (possibly growing) list; `fuel`
bounds the number of iterations, and `fuelOut` reports that the bound was
reached before the loop finished. -/
def loadLoop (fs : FS) (exts : Option (List String)) (tv : VMap) :
    Nat → Nat → LoadSt → LoadSt × LoadExit
  | 0, _, st => (st, .fuelOut)
  | fuel + 1, i, st =>
    match st.iterFiles.drop i with
    | [] => (st, .done)
    | filename :: _ =>
      match loadStep fs exts tv st filename with
      | (st2, none) => loadLoop fs exts tv fuel (i + 1) st2
      | (st2, some e) => (st2, .failed e)

/-- Lines 166-168: every top-level key of `hostvars_to_update` that is also
in `extra_vars` is overwritten with the extra-vars value. -/
def pinExtra (ev : VMap) : VMap → VMap
  | .nil => .nil
  | .cons k v rest => .cons k ((vmLookup k ev).getD v) (pinExtra ev rest)

def pinWarnings (ev : VMap) : VMap → List Diag
  | .nil => []
  | .cons k _ rest =>
    (if (vmLookup k ev).isSome then [Diag.extraVarsConflictFile k] else []) ++
    pinWarnings ev rest

/- ------------------------------------------------------------------ -/
/- Literal phase (lines 177-211).                                      -/
/- ------------------------------------------------------------------ -/

structure LitSt where
  hostvars : VMap
  changed : Bool
  diags : List Diag
deriving DecidableEq

/-- Lines 195-197: seed the literal's top-level key from `task_vars` when
it is not yet in `hostvars_to_update` (the deep copy is a value copy
here). -/
def litSeed (tv hv : VMap) (k0 : String) : VMap :=
  if (vmLookup k0 hv).isNone then
    match vmLookup k0 tv with
    | some v => vmSet hv k0 v
    | none => hv
  else hv

/-- One literal item: split the path on dots, reject an empty segment list
(dead code: `split` never returns an empty list), skip with a warning when
the first segment is in `extra_vars`, otherwise seed the top-level key from
`task_vars` when absent and apply the assignment, or-ing the changed
flag. -/
def litStep (ev tv : VMap) (st : LitSt) (item : Literal) : LitSt × Option RunErr :=
  match splitDots item.path with
  | [] => (st, some .invalidPath)
  | k0 :: krest =>
    if (vmLookup k0 ev).isSome then
      ({ st with diags := st.diags ++ [.extraVarsConflictLiteral k0] }, none)
    else
      ({ st with
           hostvars := (applyPathC (litSeed tv st.hostvars k0) (k0 :: krest) item.value).1,
           changed := st.changed ||
             (applyPathC (litSeed tv st.hostvars k0) (k0 :: krest) item.value).2 },
       none)

def litLoop (ev tv : VMap) : List Literal → LitSt → LitSt × Option RunErr
  | [], st => (st, none)
  | it :: rest, st =>
    match litStep ev tv st it with
    | (st2, none) => litLoop ev tv rest st2
    | (st2, some e) => (st2, some e)

/- ------------------------------------------------------------------ -/
/- Merge Orchestrator: `ActionModule.run`.                             -/
/- ------------------------------------------------------------------ -/

structure RunResult where
  changed : Bool
  ansible_included_var_files : Option (List String)
  ansible_facts : VMap

structure RunOutcome where
  loads : List String
  diags : List Diag
  result : Option (Except RunErr RunResult)

structure FilesOut where
  changed : Bool
  included : Option (List String)
  hostvars : VMap
  loads : List String
  diags : List Diag

/-- The tail of the files phase after the load loop has exited. -/
def filesPhaseLoaded (ev : VMap) : LoadSt × LoadExit → FilesOut ⊕ RunOutcome
  | (lst, .fuelOut) => .inr ⟨lst.loads, lst.diags, none⟩
  | (lst, .failed e) => .inr ⟨lst.loads, lst.diags, some (.error e)⟩
  | (lst, .done) =>
    .inl ⟨!(deep_diff lst.orig (pinExtra ev lst.hostvars) "").isEmpty,
          some lst.res0, pinExtra ev lst.hostvars, lst.loads,
          lst.diags ++ pinWarnings ev lst.hostvars⟩

/-- The tail of the files phase after resolution. -/
def filesPhaseResolved (fuel : Nat) (exts : Option (List String)) (tv ev : VMap)
    (fs : FS) : ResolveSt × Option RunErr → FilesOut ⊕ RunOutcome
  | (rst, some e) => .inr ⟨[], rst.diags, some (.error e)⟩
  | (rst, none) => filesPhaseLoaded ev (loadLoop fs exts tv fuel 0 (initLoadSt rst))

/-- The `if 'files' in self._task.args` block: resolve the sources, run the
load loop, pin the extra-vars keys, and derive the changed flag from the
structural diff of the pre-seeded baseline subset against the post-merge
target. -/
def filesPhase (fuel : Nat) (args : Args) (tv ev : VMap) (fs : FS) :
    FilesOut ⊕ RunOutcome :=
  match args.files with
  | none => .inl ⟨false, none, .nil, [], []⟩
  | some sources =>
    filesPhaseResolved fuel args.extensions tv ev fs
      (resolveList fs args.ignore_missing_files sources initResolveSt)

/-- The tail of the literal phase after the literal loop has finished. -/
def runLitsDone (fo : FilesOut) : LitSt × Option RunErr → RunOutcome
  | (lst, some e) => ⟨fo.loads, lst.diags, some (.error e)⟩
  | (lst, none) => ⟨fo.loads, lst.diags, some (.ok ⟨lst.changed, fo.included, lst.hostvars⟩)⟩

/-- The `if 'literals' in self._task.args` block run on the files-phase
output. -/
def runLiterals (lits : List Literal) (ev tv : VMap) (fo : FilesOut) : RunOutcome :=
  runLitsDone fo (litLoop ev tv lits ⟨fo.hostvars, fo.changed, fo.diags⟩)

/-- Dispatch after the files phase: an error or fuel exhaustion is final,
otherwise the literal phase runs when `literals` was supplied. -/
def runAfterFiles : (FilesOut ⊕ RunOutcome) → Option (List Literal) → VMap → VMap →
    RunOutcome
  | .inr out, _, _, _ => out
  | .inl fo, none, _, _ =>
    ⟨fo.loads, fo.diags, some (.ok ⟨fo.changed, fo.included, fo.hostvars⟩)⟩
  | .inl fo, some lits, ev, tv => runLiterals lits ev tv fo

/-- `ActionModule.run`: validation, files phase, literal phase, result.
`tv` is `task_vars` (the Baseline), `ev` the extra-vars dict (the Protected
Key Set).  `result = none` means the bounded model of the load loop ran out
of fuel, i.e. the loop had not finished after `fuel` iterations. -/
def runMV (fuel : Nat) (args : Args) (tv ev : VMap) (fs : FS) : RunOutcome :=
  if args.files.isNone && args.literals.isNone then
    ⟨[], [], some (.error .configError)⟩
  else runAfterFiles (filesPhase fuel args tv ev fs) args.literals ev tv

/- ------------------------------------------------------------------ -/
/- Lemmas about the Deep Merge Engine.                                 -/
/- ------------------------------------------------------------------ -/

theorem vmLookup_mergeShared (b : VMap) (k : String) :
    ∀ a : VMap,
      vmLookup k (mergeShared a b) =
        (vmLookup k a).map (fun v =>
          match vmLookup k b with
          | some w => merge v w
          | none => v) := by
  intro a
  induction a using VMap.indOn with
  | nil => simp [mergeShared, vmLookup]
  | cons k2 v2 rest ih =>
    by_cases h : k2 = k
    · subst h
      cases h2 : vmLookup k2 b <;> simp [mergeShared, h2, vmLookup]
    · cases h2 : vmLookup k2 b <;> simp [mergeShared, h2, vmLookup, h, ih]

theorem vmLookup_newKeys (a : VMap) (k : String) :
    ∀ b : VMap,
      vmLookup k (newKeys a b) =
        if (vmLookup k a).isSome then none else vmLookup k b := by
  intro b
  induction b using VMap.indOn with
  | nil => simp [newKeys, vmLookup]
  | cons k2 v2 rest ih =>
    by_cases h : k2 = k
    · subst h
      cases h2 : vmLookup k2 a <;> simp [newKeys, h2, vmLookup, ih]
    · cases h2 : vmLookup k2 a <;> simp [newKeys, h2, vmLookup, h, ih]

theorem vmAppend_nil_right : ∀ a : VMap, vmAppend a .nil = a := by
  intro a
  induction a using VMap.indOn with
  | nil => rfl
  | cons k v rest ih => simp [vmAppend, ih]

theorem mergeShared_nil_right : ∀ a : VMap, mergeShared a .nil = a := by
  intro a
  induction a using VMap.indOn with
  | nil => rfl
  | cons k v rest ih => simp [mergeShared, vmLookup, ih]

theorem newKeys_nil_left : ∀ b : VMap, newKeys .nil b = b := by
  intro b
  induction b using VMap.indOn with
  | nil => rfl
  | cons k v rest ih => simp [newKeys, vmLookup, ih]

/-- C5: For all mappings A and B, merge(A, B) contains every key of A not in
B with its value unchanged, every key of B not in A, and for every shared
key the recursive merge of the two values; merge(A, {}) = A and
merge({}, B) = B; and for all values X, Y where either side is not a
mapping (including type mismatches), merge(X, Y) = Y.  (The merge is the
spec-modelled `merge_hash` contract, `ansible.utils.vars` not being part of
this repository's sources.) -/
theorem C5_merge_engine_contract :
    (∀ (a b : VMap) (k : String) (v : Value),
        vmLookup k a = some v → vmLookup k b = none →
        vmLookup k (mergeVMap a b) = some v) ∧
    (∀ (a b : VMap) (k : String) (v : Value),
        vmLookup k a = none → vmLookup k b = some v →
        vmLookup k (mergeVMap a b) = some v) ∧
    (∀ (a b : VMap) (k : String) (va vb : Value),
        vmLookup k a = some va → vmLookup k b = some vb →
        vmLookup k (mergeVMap a b) = some (merge va vb)) ∧
    (∀ a : VMap, merge (.map a) (.map .nil) = .map a) ∧
    (∀ b : VMap, merge (.map .nil) (.map b) = .map b) ∧
    (∀ x y : Value, ((∀ a, x ≠ .map a) ∨ (∀ b, y ≠ .map b)) → merge x y = y) := by
  refine ⟨?_, ?_, ?_, ?_, ?_, ?_⟩
  · intro a b k v ha hb
    simp [mergeVMap, vmLookup_vmAppend, vmLookup_mergeShared, ha, hb, Option.orElse]
  · intro a b k v ha hb
    simp [mergeVMap, vmLookup_vmAppend, vmLookup_mergeShared, vmLookup_newKeys,
      ha, hb, Option.orElse]
  · intro a b k va vb ha hb
    simp [mergeVMap, vmLookup_vmAppend, vmLookup_mergeShared, ha, hb, Option.orElse]
  · intro a
    simp [merge, mergeShared_nil_right, vmAppend_nil_right, newKeys]
  · intro b
    simp [merge, mergeShared, newKeys_nil_left, vmAppend]
  · intro x y h
    cases x <;> try rfl
    case map a =>
      cases y <;> try rfl
      case map b =>
        rcases h with h | h
        · exact absurd rfl (h a)
        · exact absurd rfl (h b)

/-- Witness for C5 at concrete inputs. -/
theorem C5_merge_engine_contract_witness :
    vmLookup "a" (mergeVMap (vmOf [("a", .int 1)]) (vmOf [("b", .int 2)])) =
        some (.int 1) ∧
    vmLookup "b" (mergeVMap (vmOf [("a", .int 1)]) (vmOf [("b", .int 2)])) =
        some (.int 2) ∧
    vmLookup "c" (mergeVMap (vmOf [("c", .map (vmOf [("x", .int 1)]))])
        (vmOf [("c", .map (vmOf [("y", .int 2)]))])) =
      some (merge (.map (vmOf [("x", .int 1)])) (.map (vmOf [("y", .int 2)]))) ∧
    merge (.str "s") (.int 2) = .int 2 :=
  ⟨C5_merge_engine_contract.1 _ _ "a" _ rfl rfl,
   C5_merge_engine_contract.2.1 _ _ "b" _ rfl rfl,
   C5_merge_engine_contract.2.2.1 _ _ "c" _ _ rfl rfl,
   C5_merge_engine_contract.2.2.2.2.2 _ _ (Or.inl (fun _ h => Value.noConfusion h))⟩

/- ------------------------------------------------------------------ -/
/- Lemmas about the Structural Diff.                                   -/
/- ------------------------------------------------------------------ -/

/-- The diff paths of interest: whether a path string contains a dot. -/
def hasDot (s : String) : Prop := '.' ∈ s.data

instance (s : String) : Decidable (hasDot s) :=
  inferInstanceAs (Decidable ('.' ∈ s.data))

theorem hasDot_joinPath (p k : String) (hp : p ≠ "") : hasDot (joinPath p k) := by
  have h : joinPath p k = p ++ "." ++ k := by simp [joinPath, hp]
  rw [h]
  unfold hasDot
  rw [String.data_append, String.data_append]
  exact List.mem_append.mpr (Or.inl (List.mem_append.mpr (Or.inr (by decide))))

theorem hasDot_ne_empty {s : String} (h : hasDot s) : s ≠ "" := by
  intro he
  subst he
  revert h
  decide

theorem vmLookup_none_iff (k : String) : ∀ d : VMap, vmLookup k d = none ↔ k ∉ vmKeys d := by
  intro d
  induction d using VMap.indOn with
  | nil => simp [vmLookup, vmKeys]
  | cons k2 v rest ih =>
    by_cases h : k2 = k
    · subst h
      simp [vmLookup, vmKeys]
    · simp [vmLookup, vmKeys, h, Ne.symm h, ih]

theorem vmLookup_isSome_mem {k : String} {d : VMap}
    (h : (vmLookup k d).isSome) : k ∈ vmKeys d := by
  by_contra hmem
  rw [← vmLookup_none_iff] at hmem
  rw [hmem] at h
  exact Bool.noConfusion h

theorem diffD2only_dot (d1 : VMap) : ∀ (d2 : VMap) (p : String), p ≠ "" →
    ∀ e ∈ diffD2only d1 d2 p, hasDot e.1 := by
  intro d2
  induction d2 using VMap.indOn with
  | nil => intro p hp e he; simp [diffD2only] at he
  | cons k v2 rest ih =>
    intro p hp e he
    simp only [diffD2only] at he
    rcases List.mem_append.mp he with h | h
    · cases hk : (vmLookup k d1).isSome with
      | true => simp [hk] at h
      | false =>
        simp [hk] at h
        rw [h]
        exact hasDot_joinPath p k hp
    · exact ih p hp e h

mutual
theorem diffD1_dot : ∀ (d1 d2 : VMap) (p : String), p ≠ "" →
    ∀ e ∈ diffD1 d1 d2 p, hasDot e.1
  | .nil, d2, p => by
      intro hp e he
      simp [diffD1] at he
  | .cons k v1 rest, d2, p => by
      intro hp e he
      simp only [diffD1] at he
      rcases List.mem_append.mp he with h | h
      · cases hl : vmLookup k d2 with
        | none =>
            rw [hl] at h
            simp at h
            rw [h]
            exact hasDot_joinPath p k hp
        | some v2 =>
            rw [hl] at h
            rcases diffHead_entries v1 v2 (joinPath p k)
                (hasDot_ne_empty (hasDot_joinPath p k hp)) e h with h2 | h2
            · rw [h2]
              exact hasDot_joinPath p k hp
            · exact h2
      · exact diffD1_dot rest d2 p hp e h

theorem diffHead_entries : ∀ (v1 v2 : Value) (np : String), np ≠ "" →
    ∀ e ∈ diffHead v1 v2 np, e.1 = np ∨ hasDot e.1
  | .map m1, .map m2, np => by
      intro hnp e he
      simp only [diffHead] at he
      rcases List.mem_append.mp he with h | h
      · exact Or.inr (diffD1_dot m1 m2 np hnp e h)
      · exact Or.inr (diffD2only_dot m1 m2 np hnp e h)
  | .null, v2, np => by
      intro hnp e he
      simp only [diffHead] at he
      split at he
      · simp at he
      · simp at he
        rw [he]
        exact Or.inl rfl
  | .bool b1, v2, np => by
      intro hnp e he
      simp only [diffHead] at he
      split at he
      · simp at he
      · simp at he
        rw [he]
        exact Or.inl rfl
  | .int n1, v2, np => by
      intro hnp e he
      simp only [diffHead] at he
      split at he
      · simp at he
      · simp at he
        rw [he]
        exact Or.inl rfl
  | .str s1, v2, np => by
      intro hnp e he
      simp only [diffHead] at he
      split at he
      · simp at he
      · simp at he
        rw [he]
        exact Or.inl rfl
  | .seq l1, v2, np => by
      intro hnp e he
      simp only [diffHead] at he
      split at he
      · simp at he
      · simp at he
        rw [he]
        exact Or.inl rfl
  | .map m1, .null, np => by
      intro hnp e he
      simp only [diffHead] at he
      split at he
      · simp at he
      · simp at he
        rw [he]
        exact Or.inl rfl
  | .map m1, .bool b2, np => by
      intro hnp e he
      simp only [diffHead] at he
      split at he
      · simp at he
      · simp at he
        rw [he]
        exact Or.inl rfl
  | .map m1, .int n2, np => by
      intro hnp e he
      simp only [diffHead] at he
      split at he
      · simp at he
      · simp at he
        rw [he]
        exact Or.inl rfl
  | .map m1, .str s2, np => by
      intro hnp e he
      simp only [diffHead] at he
      split at he
      · simp at he
      · simp at he
        rw [he]
        exact Or.inl rfl
  | .map m1, .seq l2, np => by
      intro hnp e he
      simp only [diffHead] at he
      split at he
      · simp at he
      · simp at he
        rw [he]
        exact Or.inl rfl
end

theorem diffHead_filter_ne (v1 v2 : Value) (np k : String) (hk : ¬ hasDot k)
    (hne : np ≠ k) (hnp : np ≠ "") :
    (diffHead v1 v2 np).filter (fun e => e.1 == k) = [] := by
  rw [List.filter_eq_nil_iff]
  intro e he
  rcases diffHead_entries v1 v2 np hnp e he with h | h
  · simp [h, hne]
  · have : e.1 ≠ k := fun hek => hk (hek ▸ h)
    simp [this]

theorem diffD1_filter (d2 : VMap) (k : String) (hk : ¬ hasDot k)
    (hk2 : vmLookup k d2 = none) :
    ∀ d1 : VMap, (vmKeys d1).Nodup →
      ¬("" ∈ vmKeys d1 ∧ "" ∈ vmKeys d2) →
      (diffD1 d1 d2 "").filter (fun e => e.1 == k) =
        (match vmLookup k d1 with
         | some v1 => [(k, v1, Value.null)]
         | none => []) := by
  intro d1
  induction d1 using VMap.indOn with
  | nil => intro _ _; simp [diffD1, vmLookup]
  | cons k2 v1 rest ih =>
    intro hnd h0
    simp only [vmKeys] at hnd
    have hnd2 : (vmKeys rest).Nodup := (List.nodup_cons.mp hnd).2
    have h0r : ¬("" ∈ vmKeys rest ∧ "" ∈ vmKeys d2) := by
      rintro ⟨h1, h2⟩
      exact h0 ⟨by simp [vmKeys, h1], h2⟩
    simp only [diffD1, List.filter_append]
    cases hl : vmLookup k2 d2 with
    | none =>
      by_cases hkk : k2 = k
      · subst hkk
        have hrest : vmLookup k2 rest = none :=
          (vmLookup_none_iff k2 rest).mpr (List.nodup_cons.mp hnd).1
        rw [ih hnd2 h0r]
        simp [joinPath, vmLookup, hrest]
      · rw [ih hnd2 h0r]
        simp [joinPath, vmLookup, hkk]
    | some v2 =>
      have hkk : k2 ≠ k := by
        intro h
        subst h
        rw [hl] at hk2
        exact Option.noConfusion hk2
      have hk2e : k2 ≠ "" := by
        intro h
        subst h
        exact h0 ⟨by simp [vmKeys], vmLookup_isSome_mem (by rw [hl]; rfl)⟩
      have hjoin : joinPath "" k2 = k2 := by simp [joinPath]
      rw [hjoin, diffHead_filter_ne v1 v2 k2 k hk hkk hk2e, ih hnd2 h0r]
      simp [vmLookup, hkk]

theorem diffD1_filter_none (d2 : VMap) (k : String) (hk : ¬ hasDot k) :
    ∀ d1 : VMap, vmLookup k d1 = none →
      ¬("" ∈ vmKeys d1 ∧ "" ∈ vmKeys d2) →
      (diffD1 d1 d2 "").filter (fun e => e.1 == k) = [] := by
  intro d1
  induction d1 using VMap.indOn with
  | nil => intro _ _; simp [diffD1]
  | cons k2 v1 rest ih =>
    intro hld h0
    have hkk : k2 ≠ k := by
      intro h
      subst h
      simp [vmLookup] at hld
    have hldr : vmLookup k rest = none := by
      rw [vmLookup] at hld
      rwa [if_neg hkk] at hld
    have h0r : ¬("" ∈ vmKeys rest ∧ "" ∈ vmKeys d2) := by
      rintro ⟨h1, h2⟩
      exact h0 ⟨by simp [vmKeys, h1], h2⟩
    simp only [diffD1, List.filter_append]
    cases hl : vmLookup k2 d2 with
    | none =>
      rw [ih hldr h0r]
      simp [joinPath, hkk]
    | some v2 =>
      have hk2e : k2 ≠ "" := by
        intro h
        subst h
        exact h0 ⟨by simp [vmKeys], vmLookup_isSome_mem (by rw [hl]; rfl)⟩
      have hjoin : joinPath "" k2 = k2 := by simp [joinPath]
      rw [hjoin, diffHead_filter_ne v1 v2 k2 k hk hkk hk2e, ih hldr h0r]
      simp

theorem diffD2only_filter (d1 : VMap) (k : String) :
    ∀ d2 : VMap, (vmKeys d2).Nodup →
      (diffD2only d1 d2 "").filter (fun e => e.1 == k) =
        (match vmLookup k d1, vmLookup k d2 with
         | none, some v2 => [(k, Value.null, v2)]
         | _, _ => []) := by
  intro d2
  induction d2 using VMap.indOn with
  | nil =>
    intro _
    cases vmLookup k d1 <;> simp [diffD2only, vmLookup]
  | cons k2 v2 rest ih =>
    intro hnd
    simp only [vmKeys] at hnd
    have hnd2 : (vmKeys rest).Nodup := (List.nodup_cons.mp hnd).2
    simp only [diffD2only, List.filter_append]
    by_cases hkk : k2 = k
    · subst hkk
      have hrest : vmLookup k2 rest = none :=
        (vmLookup_none_iff k2 rest).mpr (List.nodup_cons.mp hnd).1
      cases hd1 : vmLookup k2 d1 with
      | some w => simp [hd1, ih hnd2, hrest, vmLookup]
      | none => simp [hd1, ih hnd2, hrest, vmLookup, joinPath]
    · cases hs : (vmLookup k2 d1).isSome <;>
        simp [hs, hkk, ih hnd2, vmLookup, joinPath]

/-- C4 counterexample: the claim asserts that the missing side of a
one-sided diff entry is an absent marker *distinct* from an explicit null,
making absence distinguishable from an explicit null in the diff output.
In the code the marker is Python `None` itself: diffing `{a: None}` against
`{a: 5}` and diffing `{}` against `{a: 5}` produce the *identical* entry
`("a", None, 5)`, so the two situations are indistinguishable. -/
theorem C4_absent_marker_counterexample :
    deep_diff (vmOf [("a", Value.null)]) (vmOf [("a", .int 5)]) "" =
        [("a", Value.null, .int 5)] ∧
    deep_diff .nil (vmOf [("a", .int 5)]) "" = [("a", Value.null, .int 5)] :=
  ⟨rfl, rfl⟩

/-- C4 amended: for every pair of mappings (with unique, dot-free,
non-empty top-level keys as Python dicts loaded from variable files have),
for any key present in only one side, `deep_diff` records exactly one entry
for that key, whose missing side is recorded as `None` — the *same* value
as an explicit null, so a key absent on one side is *not* distinguishable
in the diff output from a key explicitly set to null on that side. -/
theorem C4_one_sided_keys_amended :
    ∀ (d1 d2 : VMap) (k : String),
      (vmKeys d1).Nodup → (vmKeys d2).Nodup → ¬ hasDot k →
      ("" ∉ vmKeys d1 ∨ "" ∉ vmKeys d2) →
      (∀ v1, vmLookup k d1 = some v1 → vmLookup k d2 = none →
        (deep_diff d1 d2 "").filter (fun e => e.1 == k) =
          [(k, v1, Value.null)]) ∧
      (∀ v2, vmLookup k d2 = some v2 → vmLookup k d1 = none →
        (deep_diff d1 d2 "").filter (fun e => e.1 == k) =
          [(k, Value.null, v2)]) := by
  intro d1 d2 k hnd1 hnd2 hk h0
  have h0' : ¬("" ∈ vmKeys d1 ∧ "" ∈ vmKeys d2) := by
    rintro ⟨ha, hb⟩
    rcases h0 with h | h
    · exact h ha
    · exact h hb
  constructor
  · intro v1 h1 h2
    unfold deep_diff
    rw [List.filter_append, diffD1_filter d2 k hk h2 d1 hnd1 h0',
      diffD2only_filter d1 k d2 hnd2, h1, h2]
    simp
  · intro v2 h2 h1
    unfold deep_diff
    rw [List.filter_append, diffD1_filter_none d2 k hk d1 h1 h0',
      diffD2only_filter d1 k d2 hnd2, h1, h2]
    simp

/-- Witness for the amended C4 at concrete inputs. -/
theorem C4_one_sided_keys_amended_witness :
    (deep_diff (vmOf [("a", .int 7)]) .nil "").filter (fun e => e.1 == "a") =
        [("a", .int 7, Value.null)] ∧
    (deep_diff .nil (vmOf [("b", .int 8)]) "").filter (fun e => e.1 == "b") =
        [("b", Value.null, .int 8)] :=
  ⟨(C4_one_sided_keys_amended (vmOf [("a", .int 7)]) .nil "a"
      (by decide) (by decide) (by decide) (Or.inl (by decide))).1 (.int 7) rfl rfl,
   (C4_one_sided_keys_amended .nil (vmOf [("b", .int 8)]) "b"
      (by decide) (by decide) (by decide) (Or.inl (by decide))).2 (.int 8) rfl rfl⟩

/- ------------------------------------------------------------------ -/
/- Lemmas about the Literal Path Applier.                              -/
/- ------------------------------------------------------------------ -/

theorem veq_false_iff (a b : Value) : veq a b = false ↔ a ≠ b := by
  have h := veq_iff a b
  cases hv : veq a b
  · rw [hv] at h
    simp at h
    simp [h]
  · rw [hv] at h
    simp at h
    simp [h]

theorem vmSet_vmSet_self (k : String) (x y : Value) :
    ∀ d : VMap, vmSet (vmSet d k x) k y = vmSet d k y := by
  intro d
  induction d using VMap.indOn with
  | nil => simp [vmSet]
  | cons k2 v2 rest ih =>
    by_cases h : k2 = k <;> simp [vmSet, h, ih]

/-- The changed flag computed by the walk is exactly "the value read at the
final key differed from the assigned value" (an absent key reading as
null). -/
theorem applyPathC_changed :
    ∀ (keys : List String) (d : VMap) (v : Value), keys ≠ [] →
      ((applyPathC d keys v).2 = true ↔ walkGet d keys ≠ v)
  | [], _, _, h => absurd rfl h
  | [k], d, v, _ => by
      simp [applyPathC, walkGet, veq_false_iff]
  | k :: k2 :: rest, d, v, _ => by
      simp only [applyPathC, walkGet]
      exact applyPathC_changed (k2 :: rest) _ v (by simp)

/-- After an application, the walk reads back exactly the assigned value. -/
theorem walkGet_applyPathC :
    ∀ (keys : List String) (d : VMap) (v : Value), keys ≠ [] →
      walkGet (applyPathC d keys v).1 keys = v
  | [], _, _, h => absurd rfl h
  | [k], d, v, _ => by
      simp [applyPathC, walkGet, vmLookup_vmSet_self]
  | k :: k2 :: rest, d, v, _ => by
      simp only [applyPathC, walkGet, vmLookup_vmSet_self]
      exact walkGet_applyPathC (k2 :: rest) _ v (by simp)

/-- Re-applying the same assignment does not change the tree. -/
theorem applyPathC_idem_tree :
    ∀ (keys : List String) (d : VMap) (v : Value), keys ≠ [] →
      (applyPathC (applyPathC d keys v).1 keys v).1 = (applyPathC d keys v).1
  | [], _, _, h => absurd rfl h
  | [k], d, v, _ => by
      simp [applyPathC, vmSet_vmSet_self]
  | k :: k2 :: rest, d, v, _ => by
      simp only [applyPathC, vmLookup_vmSet_self, vmSet_vmSet_self]
      rw [applyPathC_idem_tree (k2 :: rest) _ v (by simp)]

/-- C7 counterexample: the claim says `changed` is true iff the previous
value at the final key differed, *including when the key was absent*.
Assigning `None` at an absent key gives `changed = false`, because the code
compares `current.get(keys[-1]) != new_value` and `get` returns `None` for
an absent key: absence is conflated with an explicit null. -/
theorem C7_literal_changed_counterexample :
    applyPathC .nil (splitDots "a") Value.null =
      (vmOf [("a", Value.null)], false) :=
  rfl

/-- C7 amended: `applyLiteral({}, "a.b.c", 5)` yields `{a: {b: {c: 5}}}`
with changed=true, re-applying any assignment yields the same tree with
changed=false, and in general `changed` is true iff the value the walk
reads at the final key — an absent key reading as null — differed from the
assigned value (so an absent key counts as differing *except* when the
assigned value is itself null). -/
theorem C7_literal_application_amended :
    (applyPathC .nil (splitDots "a.b.c") (.int 5) =
      (vmOf [("a", .map (vmOf [("b", .map (vmOf [("c", .int 5)]))]))], true)) ∧
    (∀ (d : VMap) (keys : List String) (v : Value), keys ≠ [] →
      applyPathC (applyPathC d keys v).1 keys v = ((applyPathC d keys v).1, false)) ∧
    (∀ (d : VMap) (keys : List String) (v : Value), keys ≠ [] →
      ((applyPathC d keys v).2 = true ↔ walkGet d keys ≠ v)) := by
  refine ⟨rfl, ?_, ?_⟩
  · intro d keys v hne
    have h1 := applyPathC_idem_tree keys d v hne
    have h2 : (applyPathC (applyPathC d keys v).1 keys v).2 = false := by
      by_contra h
      rw [Bool.not_eq_false] at h
      exact (applyPathC_changed keys _ v hne).mp h (walkGet_applyPathC keys d v hne)
    exact Prod.ext h1 h2
  · exact fun d keys v hne => applyPathC_changed keys d v hne

/-- Witness for the amended C7: re-application at the "a.b.c" example and
the changed-iff at a key that holds 1 and receives 2. -/
theorem C7_literal_application_amended_witness :
    applyPathC (applyPathC .nil (splitDots "a.b.c") (.int 5)).1
        (splitDots "a.b.c") (.int 5) =
      ((applyPathC .nil (splitDots "a.b.c") (.int 5)).1, false) ∧
    ((applyPathC (vmOf [("x", .int 1)]) ["x"] (.int 2)).2 = true ↔
      walkGet (vmOf [("x", .int 1)]) ["x"] ≠ .int 2) :=
  ⟨C7_literal_application_amended.2.1 .nil (splitDots "a.b.c") (.int 5) (by simp [splitDots, splitCharAux]),
   C7_literal_application_amended.2.2 (vmOf [("x", .int 1)]) ["x"] (.int 2) (by simp)⟩

/-- C2: the claim says a literal with an empty path string fails the run
with the empty-segment-list error.  The guard `if not keys` on line 189 is
dead code: Python's `"".split('.')` is `['']`, never the empty list, so the
check cannot fire.  The run with literal path `""` succeeds and sets the
empty-string key, rather than failing. -/
theorem C2_empty_path_not_rejected :
    (∀ s : String, splitDots s ≠ []) ∧
    runMV 3 ⟨none, some [⟨"", .int 7⟩], false, none⟩ .nil .nil ⟨[], []⟩ =
      ⟨[], [], some (.ok ⟨true, none, vmOf [("", .int 7)]⟩)⟩ :=
  ⟨splitDots_ne_nil, rfl⟩

/-- C3: the claim says `ansible_included_var_files` equals exactly, in
order and without duplicates, the source files actually loaded and merged.
Two divergences, both from line 126 aliasing the result list to the local
`files` and line 133 rebinding `files`:
(1) a file source that fails the extension filter is appended to the result
list during resolution and stays there although it is never loaded (the
instrumented `loads` trace is empty);
(2) with `files = ["f1.yml", "d1"]` the pre-directory source `f1.yml`
appears twice — once from resolution into the stale aliased list, once from
the load append — while the loader ran once per file. -/
theorem C3_loaded_files_report_divergence :
    runMV 3 ⟨some ["notes.txt"], none, false, some ["yml"]⟩ .nil .nil
        ⟨[("notes.txt", .nil)], []⟩ =
      ⟨[], [Diag.extFiltered "notes.txt"],
       some (.ok ⟨false, some ["notes.txt"], .nil⟩)⟩ ∧
    runMV 9 ⟨some ["f1.yml", "d1"], none, false, none⟩ .nil .nil
        ⟨[("f1.yml", vmOf [("x", .int 1)]), ("d1/a.yml", vmOf [("y", .int 2)])],
         [("d1", ["a.yml"])]⟩ =
      ⟨["f1.yml", "d1/a.yml"], [],
       some (.ok ⟨true, some ["f1.yml", "f1.yml", "d1/a.yml"],
                  vmOf [("x", .int 1), ("y", .int 2)]⟩)⟩ :=
  ⟨rfl, rfl⟩

/- ------------------------------------------------------------------ -/
/- Lemmas about the Source Resolver and the Orchestrator.              -/
/- ------------------------------------------------------------------ -/

/-- The resolver processes entries strictly in list order. -/
theorem resolveList_append (fs : FS) (ign : Bool) :
    ∀ (l1 l2 : List String) (st : ResolveSt),
      resolveList fs ign (l1 ++ l2) st =
        (match resolveList fs ign l1 st with
         | (st2, none) => resolveList fs ign l2 st2
         | (st2, some e) => (st2, some e)) := by
  intro l1
  induction l1 with
  | nil => intro l2 st; rfl
  | cons s rest ih =>
    intro l2 st
    simp only [List.cons_append, resolveList]
    by_cases h1 : isfile fs s = true
    · rw [if_pos h1, if_pos h1]
      exact ih l2 _
    · rw [if_neg h1, if_neg h1]
      by_cases h2 : isdir fs s = true
      · rw [if_pos h2, if_pos h2]
        exact ih l2 _
      · rw [if_neg h2, if_neg h2]
        by_cases h3 : ign = true
        · rw [if_pos h3, if_pos h3]
          exact ih l2 _
        · rw [if_neg h3, if_neg h3]

theorem resolveList_file (fs : FS) (ign : Bool) (st : ResolveSt) (f : String)
    (hf : isfile fs f = true) :
    resolveList fs ign [f] st =
      ({ st with files := st.files ++ [f],
                 res0 := if st.aliased then st.res0 ++ [f] else st.res0 }, none) := by
  simp [resolveList, hf]

theorem resolveList_dir (fs : FS) (ign : Bool) (st : ResolveSt) (d : String)
    (hf : isfile fs d = false) (hd : isdir fs d = true) :
    resolveList fs ign [d] st =
      ({ st with
           files := st.files ++
             sortStrings (((listdir fs d).map (pathJoin d)).filter
               (fun p => isfile fs p)),
           aliased := false }, none) := by
  simp [resolveList, hf, hd]

/-- C8: the resolver walks the source list in order, expands each existing
directory to its direct file children sorted lexicographically, appends
existing files as-is, and on the spec's example `["d1", "f1.yml"]` with
`d1` containing `b.yml` and `a.yml` produces
`["d1/a.yml", "d1/b.yml", "f1.yml"]`. -/
theorem C8_source_resolver_order :
    (resolveList
        ⟨[("d1/a.yml", .nil), ("d1/b.yml", .nil), ("f1.yml", .nil)],
         [("d1", ["b.yml", "a.yml"])]⟩
        false ["d1", "f1.yml"] initResolveSt =
      (⟨["d1/a.yml", "d1/b.yml", "f1.yml"], [], false, []⟩, none)) ∧
    (∀ (fs : FS) (ign : Bool) (l1 l2 : List String) (st : ResolveSt),
      resolveList fs ign (l1 ++ l2) st =
        (match resolveList fs ign l1 st with
         | (st2, none) => resolveList fs ign l2 st2
         | (st2, some e) => (st2, some e))) ∧
    (∀ (fs : FS) (ign : Bool) (st : ResolveSt) (d : String),
      isfile fs d = false → isdir fs d = true →
      resolveList fs ign [d] st =
        ({ st with
             files := st.files ++
               sortStrings (((listdir fs d).map (pathJoin d)).filter
                 (fun p => isfile fs p)),
             aliased := false }, none)) ∧
    (∀ (fs : FS) (ign : Bool) (st : ResolveSt) (f : String),
      isfile fs f = true →
      resolveList fs ign [f] st =
        ({ st with files := st.files ++ [f],
                   res0 := if st.aliased then st.res0 ++ [f] else st.res0 }, none)) :=
  ⟨rfl, resolveList_append, resolveList_dir, resolveList_file⟩

/-- Witness for C8's conditional conjuncts at concrete inputs. -/
theorem C8_source_resolver_order_witness :
    resolveList ⟨[("d/x.yml", .nil)], [("d", ["x.yml"])]⟩ false ["d"] initResolveSt =
      ({ initResolveSt with files := ["d/x.yml"], aliased := false }, none) ∧
    resolveList ⟨[("f.yml", .nil)], []⟩ false ["f.yml"] initResolveSt =
      ({ initResolveSt with files := ["f.yml"], res0 := ["f.yml"] }, none) :=
  ⟨C8_source_resolver_order.2.2.1 ⟨[("d/x.yml", .nil)], [("d", ["x.yml"])]⟩
      false initResolveSt "d" rfl rfl,
   C8_source_resolver_order.2.2.2 ⟨[("f.yml", .nil)], []⟩ false initResolveSt
      "f.yml" rfl⟩

/-- With tolerance off, a source list containing a missing entry makes the
resolution loop abort at the first missing entry, leaving the accumulated
diagnostics untouched (no branch before the failure emits any). -/
theorem resolveList_missing (fs : FS) :
    ∀ (sources : List String) (st : ResolveSt),
      (∃ s ∈ sources, isfile fs s = false ∧ isdir fs s = false) →
      ∃ m, m ∈ sources ∧ isfile fs m = false ∧ isdir fs m = false ∧
        ∃ st2, resolveList fs false sources st = (st2, some (.sourceNotFound m)) ∧
          st2.diags = st.diags := by
  intro sources
  induction sources with
  | nil =>
    intro st h
    rcases h with ⟨s, hs, _⟩
    exact absurd hs (List.not_mem_nil s)
  | cons s rest ih =>
    intro st h
    by_cases h1 : isfile fs s = true
    · rcases h with ⟨m, hm, hmf, hmd⟩
      have hmr : m ∈ rest := by
        rcases List.mem_cons.mp hm with h | h
        · rw [h] at hmf
          rw [hmf] at h1
          exact Bool.noConfusion h1
        · exact h
      rcases ih ⟨st.files ++ [s], if st.aliased then st.res0 ++ [s] else st.res0,
            st.aliased, st.diags⟩
          ⟨m, hmr, hmf, hmd⟩ with ⟨m2, hm2, hf2, hd2, st2, heq, hdg⟩
      refine ⟨m2, List.mem_cons_of_mem s hm2, hf2, hd2, st2, ?_, hdg⟩
      simp only [resolveList]
      rw [if_pos h1]
      exact heq
    · by_cases h2 : isdir fs s = true
      · rcases h with ⟨m, hm, hmf, hmd⟩
        have hmr : m ∈ rest := by
          rcases List.mem_cons.mp hm with h | h
          · rw [h] at hmd
            rw [hmd] at h2
            exact Bool.noConfusion h2
          · exact h
        rcases ih ⟨st.files ++ sortStrings (((listdir fs s).map
              (pathJoin s)).filter (fun p => isfile fs p)),
            st.res0, false, st.diags⟩
            ⟨m, hmr, hmf, hmd⟩ with ⟨m2, hm2, hf2, hd2, st2, heq, hdg⟩
        refine ⟨m2, List.mem_cons_of_mem s hm2, hf2, hd2, st2, ?_, hdg⟩
        simp only [resolveList]
        rw [if_neg h1, if_pos h2]
        exact heq
      · refine ⟨s, List.mem_cons_self s rest,
          Bool.eq_false_iff.mpr h1, Bool.eq_false_iff.mpr h2, st, ?_, rfl⟩
        simp only [resolveList]
        rw [if_neg h1, if_neg h2]
        simp

/-- C10: the whole source list is resolved before any file is loaded, so a
missing entry with tolerance off fails the run with `SourceNotFoundError`
before the loader runs for any file — even files earlier in the list — and
no merge work is done: the instrumented trace of loader invocations is
empty and no result tree is produced. -/
theorem C10_resolution_precedes_loading :
    ∀ (fuel : Nat) (args : Args) (tv ev : VMap) (fs : FS) (sources : List String),
      args.files = some sources → args.ignore_missing_files = false →
      (∃ s ∈ sources, isfile fs s = false ∧ isdir fs s = false) →
      ∃ m, m ∈ sources ∧ isfile fs m = false ∧ isdir fs m = false ∧
        runMV fuel args tv ev fs = ⟨[], [], some (.error (.sourceNotFound m))⟩ := by
  intro fuel args tv ev fs sources hfi hign hmiss
  rcases resolveList_missing fs sources initResolveSt hmiss with
    ⟨m, hm, hf, hd, st2, heq, hdg⟩
  refine ⟨m, hm, hf, hd, ?_⟩
  unfold runMV
  have hcond : (args.files.isNone && args.literals.isNone) = false := by
    rw [hfi]
    rfl
  rw [hcond]
  simp only [Bool.false_eq_true, if_false, filesPhase, hfi, hign, heq,
    filesPhaseResolved, runAfterFiles]
  rw [hdg]
  rfl

/-- Witness for C10 at a concrete missing source. -/
theorem C10_resolution_precedes_loading_witness :
    ∃ m, m ∈ ["nope.yml"] ∧ isfile ⟨[], []⟩ m = false ∧ isdir ⟨[], []⟩ m = false ∧
      runMV 3 ⟨some ["nope.yml"], none, false, none⟩ .nil .nil ⟨[], []⟩ =
        ⟨[], [], some (.error (.sourceNotFound m))⟩ :=
  C10_resolution_precedes_loading 3 ⟨some ["nope.yml"], none, false, none⟩
    .nil .nil ⟨[], []⟩ ["nope.yml"] rfl rfl
    ⟨"nope.yml", by simp, rfl, rfl⟩

/-- When no directory source rebinds `files`, the result list and the
iterated list are still the same object, so every loaded filename is
appended to the list being iterated: the index never catches up with the
length and the loop never terminates (for any fuel, the bounded model runs
out). -/
theorem loadLoop_aliased_diverges (fs : FS) (exts : Option (List String)) (tv : VMap) :
    ∀ (fuel i : Nat) (st : LoadSt), st.aliased = true →
      i < st.iterFiles.length →
      (∀ f ∈ st.iterFiles, extOk exts f = true ∧ (fsLoad fs f).isSome) →
      (loadLoop fs exts tv fuel i st).2 = .fuelOut := by
  intro fuel
  induction fuel with
  | zero => intro i st _ _ _; rfl
  | succ n ih =>
    intro i st ha hi hall
    have hdrop : st.iterFiles.drop i ≠ [] := by
      rw [Ne, List.drop_eq_nil_iff]
      omega
    obtain ⟨f, rest2, hd⟩ : ∃ f rest2, st.iterFiles.drop i = f :: rest2 := by
      cases hcase : st.iterFiles.drop i with
      | nil => exact absurd hcase hdrop
      | cons f r => exact ⟨f, r, rfl⟩
    have hf : f ∈ st.iterFiles :=
      List.drop_subset i st.iterFiles (hd ▸ List.mem_cons_self f rest2)
    obtain ⟨hext, hload⟩ := hall f hf
    obtain ⟨cfv, hcfv⟩ := Option.isSome_iff_exists.mp hload
    have hstep : loadStep fs exts tv st f =
        ({ st with
             hostvars := mergeVMap (seedAll tv cfv st.hostvars st.orig).1 cfv,
             orig := (seedAll tv cfv st.hostvars st.orig).2,
             loads := st.loads ++ [f],
             res0 := st.res0 ++ [f],
             iterFiles := st.iterFiles ++ [f] }, none) := by
      simp [loadStep, hext, hcfv, ha]
    simp only [loadLoop, hd, hstep]
    apply ih (i + 1)
    · exact ha
    · simp
      omega
    · intro f2 hf2
      rcases List.mem_append.mp hf2 with h | h
      · exact hall f2 h
      · rw [List.mem_singleton.mp h]
        exact ⟨hext, hload⟩

/-- C6: the claim's tolerant half does not hold on the code.  With
`ignore_missing_files=true` and `files = ["missing.yml", "real.yml"]` (no
directory entry, so the result list stays aliased to the iterated list),
the run never succeeds: the load loop appends each loaded filename to the
list it is iterating and never terminates, so there is no fuel bound after
which it has finished.  The intolerant half does hold: with the flag false
the run fails with `SourceNotFoundError` naming the missing entry, no file
is loaded and no tree is returned. -/
theorem C6_missing_entry_divergence :
    (∀ fuel : Nat,
      (runMV fuel ⟨some ["missing.yml", "real.yml"], none, true, none⟩ .nil .nil
        ⟨[("real.yml", vmOf [("x", .int 1)])], []⟩).result = none) ∧
    runMV 3 ⟨some ["missing.yml", "real.yml"], none, false, none⟩ .nil .nil
        ⟨[("real.yml", vmOf [("x", .int 1)])], []⟩ =
      ⟨[], [], some (.error (.sourceNotFound "missing.yml"))⟩ := by
  constructor
  · intro fuel
    have hloop := loadLoop_aliased_diverges ⟨[("real.yml", vmOf [("x", .int 1)])], []⟩
        none .nil fuel 0
        ⟨["real.yml"], ["real.yml"], true, .nil, .nil, [],
         [.missingIgnored "missing.yml"]⟩
        rfl (by simp) ?_
    · rcases hpair : loadLoop ⟨[("real.yml", vmOf [("x", .int 1)])], []⟩ none .nil fuel 0
          ⟨["real.yml"], ["real.yml"], true, .nil, .nil, [],
           [.missingIgnored "missing.yml"]⟩ with ⟨lst, ex⟩
      rw [hpair] at hloop
      simp only at hloop
      subst hloop
      have h1 : runMV fuel ⟨some ["missing.yml", "real.yml"], none, true, none⟩
          .nil .nil ⟨[("real.yml", vmOf [("x", .int 1)])], []⟩ =
          runAfterFiles
            (filesPhaseLoaded .nil
              (loadLoop ⟨[("real.yml", vmOf [("x", .int 1)])], []⟩ none .nil fuel 0
                ⟨["real.yml"], ["real.yml"], true, .nil, .nil, [],
                 [.missingIgnored "missing.yml"]⟩))
            none .nil .nil := rfl
      rw [h1, hpair]
      rfl
    · intro f hf
      rw [show f = "real.yml" by simpa using hf]
      exact ⟨rfl, rfl⟩
  · rfl

/- ------------------------------------------------------------------ -/
/- The protected-key invariant (extra_vars pinning).                   -/
/- ------------------------------------------------------------------ -/

/-- Every top-level key of `hv` that is also in the extra-vars dict holds
exactly the extra-vars value. -/
def evPinned (ev hv : VMap) : Prop :=
  ∀ k v, vmLookup k ev = some v → ∀ w, vmLookup k hv = some w → w = v

theorem evPinned_nil (ev : VMap) : evPinned ev .nil := by
  intro k v _ w hw
  simp [vmLookup] at hw

theorem evPinned_pinExtra (ev : VMap) : ∀ hv, evPinned ev (pinExtra ev hv) := by
  intro hv
  induction hv using VMap.indOn with
  | nil => exact evPinned_nil ev
  | cons k2 v2 rest ih =>
    intro k v hk w hw
    by_cases h : k2 = k
    · subst h
      simp only [pinExtra, vmLookup, if_pos rfl] at hw
      rw [hk] at hw
      simp at hw
      simp [hw]
    · simp only [pinExtra, vmLookup, if_neg h] at hw
      exact ih k v hk w hw

theorem evPinned_vmSet (ev hv : VMap) (k0 : String) (x : Value)
    (h : evPinned ev hv) (h0 : vmLookup k0 ev = none) :
    evPinned ev (vmSet hv k0 x) := by
  intro k v hk w hw
  have hne : k0 ≠ k := by
    intro he
    subst he
    rw [h0] at hk
    exact Option.noConfusion hk
  rw [vmLookup_vmSet_other hv k k0 x hne] at hw
  exact h k v hk w hw

theorem evPinned_litSeed (ev tv hv : VMap) (k0 : String)
    (h : evPinned ev hv) (h0 : vmLookup k0 ev = none) :
    evPinned ev (litSeed tv hv k0) := by
  unfold litSeed
  split
  · split
    · exact evPinned_vmSet ev hv k0 _ h h0
    · exact h
  · exact h

theorem applyPathC_cons_head (d : VMap) (k0 : String) (krest : List String)
    (v : Value) :
    ∃ x, (applyPathC d (k0 :: krest) v).1 = vmSet d k0 x := by
  cases krest with
  | nil => exact ⟨v, rfl⟩
  | cons k2 r => exact ⟨_, rfl⟩

theorem evPinned_litStep (ev tv : VMap) (st : LitSt) (it : Literal)
    (h : evPinned ev st.hostvars) :
    evPinned ev (litStep ev tv st it).1.hostvars := by
  unfold litStep
  split
  · exact h
  · rename_i k0 krest heq
    split
    · exact h
    · rename_i hev
      have h0 : vmLookup k0 ev = none := by
        cases hc : vmLookup k0 ev with
        | none => rfl
        | some x =>
          rw [hc] at hev
          exact absurd rfl hev
      obtain ⟨x, hx⟩ := applyPathC_cons_head (litSeed tv st.hostvars k0) k0 krest it.value
      show evPinned ev (applyPathC (litSeed tv st.hostvars k0) (k0 :: krest) it.value).1
      rw [hx]
      exact evPinned_vmSet ev _ k0 x (evPinned_litSeed ev tv st.hostvars k0 h h0) h0

theorem evPinned_litLoop (ev tv : VMap) :
    ∀ (lits : List Literal) (st : LitSt), evPinned ev st.hostvars →
      evPinned ev (litLoop ev tv lits st).1.hostvars := by
  intro lits
  induction lits with
  | nil => intro st h; exact h
  | cons it rest ih =>
    intro st h
    simp only [litLoop]
    rcases hs : litStep ev tv st it with ⟨st2, oe⟩
    have h2 : evPinned ev st2.hostvars := by
      have h3 := evPinned_litStep ev tv st it h
      rw [hs] at h3
      exact h3
    cases oe with
    | none => exact ih st2 h2
    | some e => exact h2

theorem filesPhase_some_eq (fuel : Nat) (args : Args) (tv ev : VMap) (fs : FS)
    (sources : List String) (hf : args.files = some sources) :
    filesPhase fuel args tv ev fs =
      filesPhaseResolved fuel args.extensions tv ev fs
        (resolveList fs args.ignore_missing_files sources initResolveSt) := by
  unfold filesPhase
  rw [hf]

theorem filesPhase_inl_pinned (fuel : Nat) (args : Args) (tv ev : VMap) (fs : FS)
    (fo : FilesOut) (h : filesPhase fuel args tv ev fs = .inl fo) :
    evPinned ev fo.hostvars := by
  cases hf : args.files with
  | none =>
    unfold filesPhase at h
    rw [hf] at h
    injection h with h2
    rw [← h2]
    exact evPinned_nil ev
  | some sources =>
    rw [filesPhase_some_eq fuel args tv ev fs sources hf] at h
    rcases hres : resolveList fs args.ignore_missing_files sources initResolveSt with ⟨rst, oe⟩
    rw [hres] at h
    cases oe with
    | some e => simp [filesPhaseResolved] at h
    | none =>
      simp only [filesPhaseResolved] at h
      rcases hloop : loadLoop fs args.extensions tv fuel 0 (initLoadSt rst) with ⟨lst, ex⟩
      rw [hloop] at h
      cases ex with
      | fuelOut => simp [filesPhaseLoaded] at h
      | failed e => simp [filesPhaseLoaded] at h
      | done =>
        simp only [filesPhaseLoaded] at h
        injection h with h2
        rw [← h2]
        exact evPinned_pinExtra ev lst.hostvars

theorem filesPhase_inr_result (fuel : Nat) (args : Args) (tv ev : VMap) (fs : FS)
    (out : RunOutcome) (h : filesPhase fuel args tv ev fs = .inr out) :
    out.result = none ∨ ∃ e, out.result = some (.error e) := by
  cases hf : args.files with
  | none =>
    unfold filesPhase at h
    rw [hf] at h
    exact absurd h (by simp)
  | some sources =>
    rw [filesPhase_some_eq fuel args tv ev fs sources hf] at h
    rcases hres : resolveList fs args.ignore_missing_files sources initResolveSt with ⟨rst, oe⟩
    rw [hres] at h
    cases oe with
    | some e =>
      simp only [filesPhaseResolved] at h
      injection h with h2
      rw [← h2]
      exact Or.inr ⟨e, rfl⟩
    | none =>
      simp only [filesPhaseResolved] at h
      rcases hloop : loadLoop fs args.extensions tv fuel 0 (initLoadSt rst) with ⟨lst, ex⟩
      rw [hloop] at h
      cases ex with
      | fuelOut =>
        simp only [filesPhaseLoaded] at h
        injection h with h2
        rw [← h2]
        exact Or.inl rfl
      | failed e =>
        simp only [filesPhaseLoaded] at h
        injection h with h2
        rw [← h2]
        exact Or.inr ⟨e, rfl⟩
      | done => simp [filesPhaseLoaded] at h

/-- C1: in every completed run, every top-level key of the Protected Key
Set (extra_vars) that is present in the merged result tree holds exactly
the externally supplied value, regardless of what any file source or
literal assigned to it: the files phase overwrites such keys with the
extra-vars value after all merges (lines 166-168), and the literal phase
skips any literal whose first path segment is such a key (lines 192-193),
while all other literal writes stay under a non-protected top-level
key. -/
theorem C1_protected_key_set_pinned :
    ∀ (fuel : Nat) (args : Args) (tv ev : VMap) (fs : FS) (r : RunResult),
      (runMV fuel args tv ev fs).result = some (.ok r) →
      ∀ k v, vmLookup k ev = some v →
      ∀ w, vmLookup k r.ansible_facts = some w → w = v := by
  intro fuel args tv ev fs r hr
  unfold runMV at hr
  by_cases hmin : (args.files.isNone && args.literals.isNone) = true
  · rw [if_pos hmin] at hr
    simp at hr
  · rw [if_neg hmin] at hr
    cases hfp : filesPhase fuel args tv ev fs with
    | inr out =>
      rw [hfp] at hr
      simp only [runAfterFiles] at hr
      rcases filesPhase_inr_result fuel args tv ev fs out hfp with h | ⟨e, h⟩ <;>
        rw [h] at hr <;> simp at hr
    | inl fo =>
      rw [hfp] at hr
      have hpin := filesPhase_inl_pinned fuel args tv ev fs fo hfp
      cases hl : args.literals with
      | none =>
        rw [hl] at hr
        simp only [runAfterFiles] at hr
        have h2 : Except.ok (ε := RunErr)
            (⟨fo.changed, fo.included, fo.hostvars⟩ : RunResult) = .ok r := by
          exact Option.some.inj hr
        have h3 : r = ⟨fo.changed, fo.included, fo.hostvars⟩ :=
          (Except.ok.inj h2).symm
        rw [h3]
        intro k v hk w hw
        exact hpin k v hk w hw
      | some lits =>
        rw [hl] at hr
        simp only [runAfterFiles, runLiterals] at hr
        rcases hll : litLoop ev tv lits ⟨fo.hostvars, fo.changed, fo.diags⟩ with ⟨lst, oe⟩
        rw [hll] at hr
        cases oe with
        | some e => simp [runLitsDone] at hr
        | none =>
          simp only [runLitsDone] at hr
          have hp2 : evPinned ev lst.hostvars := by
            have h4 := evPinned_litLoop ev tv lits ⟨fo.hostvars, fo.changed, fo.diags⟩ hpin
            rw [hll] at h4
            exact h4
          have h2 : Except.ok (ε := RunErr)
              (⟨lst.changed, fo.included, lst.hostvars⟩ : RunResult) = .ok r := by
            exact Option.some.inj hr
          have h3 : r = ⟨lst.changed, fo.included, lst.hostvars⟩ :=
            (Except.ok.inj h2).symm
          rw [h3]
          intro k v hk w hw
          exact hp2 k v hk w hw

/-- Witness for C1: a run whose loaded file sets `k: 1` and whose
extra-vars pin `k: 9`; the result carries `k: 9`. -/
theorem C1_protected_key_set_pinned_witness :
    (runMV 5 ⟨some ["d"], none, false, none⟩ .nil (vmOf [("k", .int 9)])
        ⟨[("d/f.yml", vmOf [("k", .int 1), ("a", .int 2)])], [("d", ["f.yml"])]⟩).result =
      some (.ok ⟨true, some ["d/f.yml"], vmOf [("k", .int 9), ("a", .int 2)]⟩) ∧
    (Value.int 9 : Value) = .int 9 :=
  ⟨rfl,
   C1_protected_key_set_pinned 5 ⟨some ["d"], none, false, none⟩ .nil
     (vmOf [("k", .int 9)])
     ⟨[("d/f.yml", vmOf [("k", .int 1), ("a", .int 2)])], [("d", ["f.yml"])]⟩
     ⟨true, some ["d/f.yml"], vmOf [("k", .int 9), ("a", .int 2)]⟩
     rfl "k" (.int 9) rfl (.int 9) rfl⟩

/- ------------------------------------------------------------------ -/
/- Explicit-heap model of the literal phase (object identity).         -/
/- ------------------------------------------------------------------ -/

/-- A runtime value in the explicit-heap model: immutable values inline
(scalars, and sequences/trees the code never mutates in place), mutable
dict objects by address. -/
inductive HVal where
  | imm : Value → HVal
  | ref : Nat → HVal
deriving DecidableEq

/-- A Python dict object: entries in insertion order. -/
abbrev HObj := List (String × HVal)

/-- The heap: allocated dict objects by address. -/
abbrev Heap := List (Nat × HObj)

def hget : Heap → Nat → Option HObj
  | [], _ => none
  | (a2, o) :: rest, a => if a2 = a then some o else hget rest a

def hset : Heap → Nat → HObj → Heap
  | [], a, o => [(a, o)]
  | (a2, o2) :: rest, a, o =>
    if a2 = a then (a2, o) :: rest else (a2, o2) :: hset rest a o

def objLookup : HObj → String → Option HVal
  | [], _ => none
  | (k2, v2) :: rest, k => if k2 = k then some v2 else objLookup rest k

def objSet : HObj → String → HVal → HObj
  | [], k, v => [(k, v)]
  | (k2, v2) :: rest, k, v =>
    if k2 = k then (k2, v) :: rest else (k2, v2) :: objSet rest k v

mutual
/-- `copy.deepcopy` modelled as allocation of a fresh object graph from the
pure value of the copied tree: returns the extended heap, the runtime
value, and the next free address. -/
def allocValue : Heap → Nat → Value → Heap × HVal × Nat
  | h, next, .map m =>
    ((fun r => (hset r.1 next r.2.1, HVal.ref next, r.2.2))
      (allocMap h (next + 1) m))
  | h, next, v => (h, .imm v, next)

def allocMap : Heap → Nat → VMap → Heap × HObj × Nat
  | h, next, .nil => (h, [], next)
  | h, next, .cons k v rest =>
    ((fun rv =>
        ((fun rr => (rr.1, (k, rv.2.1) :: rr.2.1, rr.2.2))
          (allocMap rv.1 rv.2.2 rest)))
      (allocValue h next v))
end

/-- A step in the Heap reachability relation of dict objects. -/
inductive HReach (h : Heap) : Nat → Nat → Prop where
  | refl : ∀ a, HReach h a a
  | step : ∀ a b c (o : HObj) (k : String),
      HReach h a b → hget h b = some o → (k, HVal.ref c) ∈ o → HReach h a c

/-- All allocated addresses and all refs stored in objects are below
`next`. -/
def heapClosed (h : Heap) (next : Nat) : Prop :=
  ∀ a o, hget h a = some o →
    a < next ∧ ∀ kv ∈ o, ∀ c, kv.2 = HVal.ref c → c < next

/-- The intermediate step of the literal walk at one key: descend through
an existing dict reference, otherwise replace the entry by a freshly
allocated empty dict (`current[key] = {}`) and descend into it. -/
def walkChild (h : Heap) (next cur : Nat) (o : HObj) (k : String) :
    Heap × Nat × Nat :=
  match objLookup o k with
  | some (.ref c) => (h, next, c)
  | _ => (hset (hset h cur (objSet o k (.ref next))) next [], next + 1, next)

/-- The in-place walk of lines 199-211 over the heap: all segments but the
last descend (creating intermediates as needed), the final segment's entry
of the current dict object is overwritten with the assigned runtime
value. -/
def walkApply : Heap → Nat → Nat → List String → HVal → Heap × Nat
  | h, next, _, [], _ => (h, next)
  | h, next, cur, [k], v =>
    (match hget h cur with
     | some o => (hset h cur (objSet o k v), next)
     | none => (h, next))
  | h, next, cur, k :: k2 :: rest, v =>
    (match hget h cur with
     | none => (h, next)
     | some o =>
       walkApply (walkChild h next cur o k).1 (walkChild h next cur o k).2.1
         (walkChild h next cur o k).2.2 (k2 :: rest) v)

/-- The allocation tail of the heap seeding: a deep copy of the
`task_vars` value (when present) is allocated and stored under the
literal's top-level key. -/
def litSeedAlloc (h : Heap) (next root : Nat) (k0 : String) (o : HObj) :
    Option Value → Heap × Nat
  | none => (h, next)
  | some v =>
    ((fun r => (hset r.1 root (objSet o k0 r.2.1), r.2.2))
      (allocValue h next v))

/-- The presence test of the heap seeding: an already-present key is left
alone. -/
def litSeedPresent (tv : VMap) (h : Heap) (next root : Nat) (k0 : String)
    (o : HObj) : Option HVal → Heap × Nat
  | some _ => (h, next)
  | none => litSeedAlloc h next root k0 o (vmLookup k0 tv)

/-- Heap version of the seeding of lines 195-197: when the literal's
top-level key is absent from the target dict and present in `task_vars`,
allocate a deep copy of the `task_vars` value and store it under the
key. -/
def litSeedH (tv : VMap) (h : Heap) (next root : Nat) (k0 : String) :
    Heap × Nat :=
  match hget h root with
  | none => (h, next)
  | some o => litSeedPresent tv h next root k0 o (objLookup o k0)

/-- Heap version of one literal item (lines 185-211): the templated value
exists as an object graph first, the extra-vars skip leaves the heap
untouched, otherwise the top-level key is seeded and the walk mutates the
target in place. -/
def litStepH (ev tv : VMap) (h : Heap) (next root : Nat) (lit : Literal) :
    Heap × Nat :=
  match splitDots lit.path with
  | [] => (h, next)
  | k0 :: krest =>
    if (vmLookup k0 ev).isSome then (h, next)
    else
      ((fun rv =>
          ((fun rs => walkApply rs.1 rs.2 root (k0 :: krest) rv.2.1)
            (litSeedH tv rv.1 rv.2.2 root k0)))
        (allocValue h next lit.value))

-- Basic heap lemmas.

theorem hget_hset_self (h : Heap) (a : Nat) (o : HObj) :
    hget (hset h a o) a = some o := by
  induction h with
  | nil => simp [hset, hget]
  | cons p rest ih =>
    rcases p with ⟨a2, o2⟩
    by_cases h2 : a2 = a <;> simp [hset, hget, h2, ih]

theorem hget_hset_other (h : Heap) (a a2 : Nat) (o : HObj) (hne : a2 ≠ a) :
    hget (hset h a2 o) a = hget h a := by
  induction h with
  | nil => simp [hset, hget, hne]
  | cons p rest ih =>
    rcases p with ⟨a3, o3⟩
    by_cases h3 : a3 = a2
    · subst h3
      simp [hset, hget, hne]
    · by_cases h4 : a3 = a <;> simp [hset, hget, h3, h4, ih, Ne.symm hne]

theorem hget_mem {h : Heap} {a : Nat} {o : HObj} (hg : hget h a = some o) :
    (a, o) ∈ h := by
  induction h with
  | nil => simp [hget] at hg
  | cons p rest ih =>
    rcases p with ⟨a2, o2⟩
    by_cases h2 : a2 = a
    · subst h2
      simp [hget] at hg
      simp [hg]
    · simp [hget, h2] at hg
      exact List.mem_cons_of_mem _ (ih hg)

theorem mem_hset {h : Heap} {a : Nat} {o : HObj} {p : Nat × HObj}
    (hp : p ∈ hset h a o) : p = (a, o) ∨ p ∈ h := by
  induction h with
  | nil =>
    simp [hset] at hp
    exact Or.inl hp
  | cons q rest ih =>
    rcases q with ⟨a2, o2⟩
    by_cases h2 : a2 = a
    · subst h2
      simp [hset] at hp
      rcases hp with hp | hp
      · exact Or.inl (by simp [hp])
      · exact Or.inr (List.mem_cons_of_mem _ hp)
    · simp [hset, h2] at hp
      rcases hp with hp | hp
      · exact Or.inr (by simp [hp])
      · rcases ih hp with hp2 | hp2
        · exact Or.inl hp2
        · exact Or.inr (List.mem_cons_of_mem _ hp2)

theorem objLookup_mem {o : HObj} {k : String} {v : HVal}
    (hl : objLookup o k = some v) : (k, v) ∈ o := by
  induction o with
  | nil => simp [objLookup] at hl
  | cons kv rest ih =>
    rcases kv with ⟨k2, v2⟩
    by_cases h2 : k2 = k
    · subst h2
      simp [objLookup] at hl
      simp [hl]
    · simp [objLookup, h2] at hl
      exact List.mem_cons_of_mem _ (ih hl)

theorem mem_objSet {o : HObj} {k : String} {v : HVal} {kv : String × HVal}
    (hkv : kv ∈ objSet o k v) : kv = (k, v) ∨ kv ∈ o := by
  induction o with
  | nil =>
    simp [objSet] at hkv
    exact Or.inl hkv
  | cons q rest ih =>
    rcases q with ⟨k2, v2⟩
    by_cases h2 : k2 = k
    · subst h2
      simp [objSet] at hkv
      rcases hkv with hkv | hkv
      · exact Or.inl (by simp [hkv])
      · exact Or.inr (List.mem_cons_of_mem _ hkv)
    · simp [objSet, h2] at hkv
      rcases hkv with hkv | hkv
      · exact Or.inr (by simp [hkv])
      · rcases ih hkv with hkv2 | hkv2
        · exact Or.inl hkv2
        · exact Or.inr (List.mem_cons_of_mem _ hkv2)

-- Reachability lemmas.

theorem HReach_trans {h : Heap} {a b c : Nat}
    (h1 : HReach h a b) (h2 : HReach h b c) : HReach h a c := by
  induction h2 with
  | refl => exact h1
  | step b2 c2 o k hr hg hm ih => exact HReach.step _ _ _ o k ih hg hm

theorem hReach_empty {h : Heap} {b a : Nat} (hr : HReach h b a)
    (hb : hget h b = some []) : a = b := by
  induction hr with
  | refl => rfl
  | step b2 c2 o k hr2 hg hm ih =>
    subst ih
    rw [hb] at hg
    injection hg with hg2
    rw [← hg2] at hm
    exact absurd hm (List.not_mem_nil _)

theorem hReach_lt {h : Heap} {next : Nat} (hcl : heapClosed h next) :
    ∀ a c, a < next → HReach h a c → c < next := by
  intro a c ha hr
  induction hr with
  | refl => exact ha
  | step b2 c2 o k hr2 hg hm ih =>
    exact ((hcl b2 o hg).2 _ hm c2 rfl)

theorem hReach_region {h : Heap} (R : Nat → Prop)
    (hcl : ∀ b, R b → ∀ o, hget h b = some o →
      ∀ k c, (k, HVal.ref c) ∈ o → R c) :
    ∀ a c, R a → HReach h a c → R c := by
  intro a c ha hr
  induction hr with
  | refl => exact ha
  | step b2 c2 o k hr2 hg hm ih => exact hcl b2 ih o hg k c2 hm

theorem hReach_of_agree {h h2 : Heap} {a : Nat}
    (hag : ∀ b, HReach h a b → hget h2 b = hget h b) :
    ∀ c, HReach h2 a c → HReach h a c := by
  intro c hr
  induction hr with
  | refl => exact HReach.refl a
  | step b2 c2 o k hr2 hg hm ih =>
    have hg2 : hget h b2 = some o := by rw [← hag b2 ih]; exact hg
    exact HReach.step _ _ _ o k ih hg2 hm

-- Equation lemmas for the walk.

theorem walkChild_ref (h : Heap) (next cur : Nat) (o : HObj) (k : String)
    (c : Nat) (hl : objLookup o k = some (.ref c)) :
    walkChild h next cur o k = (h, next, c) := by
  unfold walkChild
  rw [hl]

theorem walkChild_imm (h : Heap) (next cur : Nat) (o : HObj) (k : String)
    (w : Value) (hl : objLookup o k = some (.imm w)) :
    walkChild h next cur o k =
      (hset (hset h cur (objSet o k (.ref next))) next [], next + 1, next) := by
  unfold walkChild
  rw [hl]

theorem walkChild_none (h : Heap) (next cur : Nat) (o : HObj) (k : String)
    (hl : objLookup o k = none) :
    walkChild h next cur o k =
      (hset (hset h cur (objSet o k (.ref next))) next [], next + 1, next) := by
  unfold walkChild
  rw [hl]

theorem walkApply_one_some (h : Heap) (next cur : Nat) (k : String) (v : HVal)
    (o : HObj) (hc : hget h cur = some o) :
    walkApply h next cur [k] v = (hset h cur (objSet o k v), next) := by
  unfold walkApply
  rw [hc]

theorem walkApply_one_none (h : Heap) (next cur : Nat) (k : String) (v : HVal)
    (hc : hget h cur = none) :
    walkApply h next cur [k] v = (h, next) := by
  unfold walkApply
  rw [hc]

theorem walkApply_two_some (h : Heap) (next cur : Nat) (k k2 : String)
    (rest : List String) (v : HVal) (o : HObj) (hc : hget h cur = some o) :
    walkApply h next cur (k :: k2 :: rest) v =
      walkApply (walkChild h next cur o k).1 (walkChild h next cur o k).2.1
        (walkChild h next cur o k).2.2 (k2 :: rest) v := by
  conv_lhs => unfold walkApply
  rw [hc]

theorem walkApply_two_none (h : Heap) (next cur : Nat) (k k2 : String)
    (rest : List String) (v : HVal) (hc : hget h cur = none) :
    walkApply h next cur (k :: k2 :: rest) v = (h, next) := by
  unfold walkApply
  rw [hc]

-- Freshness predicates and the deep-copy (allocation) specification.

/-- A runtime value whose reference, if any, lies in `[lo, hi)`. -/
def hvalIn (lo hi : Nat) : HVal → Prop
  | .ref c => lo ≤ c ∧ c < hi
  | .imm _ => True

/-- All entries of a dict object point into `[lo, hi)`. -/
def objIn (lo hi : Nat) (o : HObj) : Prop := ∀ kv ∈ o, hvalIn lo hi kv.2

theorem hvalIn_mono {lo hi lo2 hi2 : Nat} (h1 : lo2 ≤ lo) (h2 : hi ≤ hi2) :
    ∀ x, hvalIn lo hi x → hvalIn lo2 hi2 x
  | .imm _, _ => trivial
  | .ref _, hx => ⟨le_trans h1 hx.1, lt_of_lt_of_le hx.2 h2⟩

theorem objIn_mono {lo hi lo2 hi2 : Nat} (h1 : lo2 ≤ lo) (h2 : hi ≤ hi2)
    (o : HObj) (ho : objIn lo hi o) : objIn lo2 hi2 o :=
  fun kv hkv => hvalIn_mono h1 h2 kv.2 (ho kv hkv)

mutual
theorem allocValue_spec : ∀ (v : Value) (h : Heap) (next : Nat),
    (∀ a o, hget h a = some o → a < next) →
    next ≤ (allocValue h next v).2.2 ∧
    (∀ a, a < next → hget (allocValue h next v).1 a = hget h a) ∧
    hvalIn next (allocValue h next v).2.2 (allocValue h next v).2.1 ∧
    (∀ b o2, next ≤ b → hget (allocValue h next v).1 b = some o2 →
      b < (allocValue h next v).2.2 ∧ objIn next (allocValue h next v).2.2 o2)
  | .null, h, next => by
      intro hd
      exact ⟨le_refl _, fun a _ => rfl, trivial,
        fun b o2 hb hg => absurd (hd b o2 hg) (by omega)⟩
  | .bool x, h, next => by
      intro hd
      exact ⟨le_refl _, fun a _ => rfl, trivial,
        fun b o2 hb hg => absurd (hd b o2 hg) (by omega)⟩
  | .int x, h, next => by
      intro hd
      exact ⟨le_refl _, fun a _ => rfl, trivial,
        fun b o2 hb hg => absurd (hd b o2 hg) (by omega)⟩
  | .str x, h, next => by
      intro hd
      exact ⟨le_refl _, fun a _ => rfl, trivial,
        fun b o2 hb hg => absurd (hd b o2 hg) (by omega)⟩
  | .seq x, h, next => by
      intro hd
      exact ⟨le_refl _, fun a _ => rfl, trivial,
        fun b o2 hb hg => absurd (hd b o2 hg) (by omega)⟩
  | .map m, h, next => by
      intro hd
      have hd1 : ∀ a o, hget h a = some o → a < next + 1 :=
        fun a o hg => Nat.lt_succ_of_lt (hd a o hg)
      obtain ⟨hle, hframe, hobj, hfresh⟩ := allocMap_spec m h (next + 1) hd1
      simp only [allocValue]
      refine ⟨by omega, ?_, ⟨le_refl _, by omega⟩, ?_⟩
      · intro a ha
        rw [hget_hset_other _ a next _ (by omega)]
        exact hframe a (by omega)
      · intro b o2 hb hg
        by_cases hbn : b = next
        · rw [hbn] at hg
          rw [hbn]
          rw [hget_hset_self] at hg
          injection hg with hg2
          rw [← hg2]
          exact ⟨by omega, objIn_mono (Nat.le_succ next) (le_refl _) _ hobj⟩
        · rw [hget_hset_other _ b next _ (Ne.symm hbn)] at hg
          obtain ⟨hb2, ho2⟩ := hfresh b o2 (by omega) hg
          exact ⟨hb2, objIn_mono (Nat.le_succ next) (le_refl _) _ ho2⟩

theorem allocMap_spec : ∀ (m : VMap) (h : Heap) (next : Nat),
    (∀ a o, hget h a = some o → a < next) →
    next ≤ (allocMap h next m).2.2 ∧
    (∀ a, a < next → hget (allocMap h next m).1 a = hget h a) ∧
    objIn next (allocMap h next m).2.2 (allocMap h next m).2.1 ∧
    (∀ b o2, next ≤ b → hget (allocMap h next m).1 b = some o2 →
      b < (allocMap h next m).2.2 ∧ objIn next (allocMap h next m).2.2 o2)
  | .nil, h, next => by
      intro hd
      refine ⟨le_refl _, fun a _ => rfl, ?_, ?_⟩
      · intro kv hkv
        exact absurd hkv (List.not_mem_nil kv)
      · intro b o2 hb hg
        exact absurd (hd b o2 hg) (by omega)
  | .cons k v rest, h, next => by
      intro hd
      obtain ⟨h1le, h1frame, h1val, h1fresh⟩ := allocValue_spec v h next hd
      have hd1 : ∀ a o, hget (allocValue h next v).1 a = some o →
          a < (allocValue h next v).2.2 := by
        intro a o hg
        by_cases ha : a < next
        · omega
        · exact (h1fresh a o (by omega) hg).1
      obtain ⟨h2le, h2frame, h2obj, h2fresh⟩ :=
        allocMap_spec rest (allocValue h next v).1 (allocValue h next v).2.2 hd1
      simp only [allocMap]
      refine ⟨by omega, ?_, ?_, ?_⟩
      · intro a ha
        rw [h2frame a (by omega)]
        exact h1frame a ha
      · intro kv hkv
        rcases List.mem_cons.mp hkv with hkv | hkv
        · rw [hkv]
          exact hvalIn_mono (le_refl _) h2le _ h1val
        · exact hvalIn_mono h1le (le_refl _) _ (h2obj kv hkv)
      · intro b o2 hb hg
        by_cases hb2 : (allocValue h next v).2.2 ≤ b
        · obtain ⟨hlt, ho⟩ := h2fresh b o2 hb2 hg
          exact ⟨hlt, objIn_mono h1le (le_refl _) _ ho⟩
        · rw [h2frame b (by omega)] at hg
          obtain ⟨hlt, ho⟩ := h1fresh b o2 hb hg
          exact ⟨by omega, objIn_mono (le_refl _) h2le _ ho⟩
end

/-- Frame property of the in-place walk: an allocated address that is not
reachable from the walked dict and is below the allocation frontier is left
untouched (the walk mutates only objects reached from `cur` and freshly
allocated intermediates). -/
theorem walkApply_frame : ∀ (keys : List String) (h : Heap) (next cur : Nat)
    (v : HVal) (a : Nat), a < next → ¬ HReach h cur a →
    hget (walkApply h next cur keys v).1 a = hget h a
  | [], h, next, cur, v, a => by
      intro _ _
      rfl
  | [k], h, next, cur, v, a => by
      intro ha hnr
      cases hc : hget h cur with
      | none => rw [walkApply_one_none h next cur k v hc]
      | some o =>
        rw [walkApply_one_some h next cur k v o hc]
        exact hget_hset_other h a cur (objSet o k v)
          (fun he => hnr (he ▸ HReach.refl cur))
  | k :: k2 :: rest, h, next, cur, v, a => by
      intro ha hnr
      cases hc : hget h cur with
      | none => rw [walkApply_two_none h next cur k k2 rest v hc]
      | some o =>
        rw [walkApply_two_some h next cur k k2 rest v o hc]
        have hcura : cur ≠ a := fun he => hnr (he ▸ HReach.refl cur)
        cases hl : objLookup o k with
        | some hv =>
          cases hv with
          | ref c =>
            rw [walkChild_ref h next cur o k c hl]
            refine walkApply_frame (k2 :: rest) h next c v a ha ?_
            intro hr
            exact hnr (HReach_trans
              (HReach.step cur cur c o k (HReach.refl cur) hc (objLookup_mem hl)) hr)
          | imm w =>
            rw [walkChild_imm h next cur o k w hl]
            have hnr3 : ¬ HReach
                (hset (hset h cur (objSet o k (.ref next))) next []) next a := by
              intro hr
              have he := hReach_empty hr (hget_hset_self _ next [])
              omega
            rw [walkApply_frame (k2 :: rest) _ (next + 1) next v a (by omega) hnr3]
            rw [hget_hset_other _ a next [] (by omega)]
            exact hget_hset_other h a cur _ hcura
        | none =>
          rw [walkChild_none h next cur o k hl]
          have hnr3 : ¬ HReach
              (hset (hset h cur (objSet o k (.ref next))) next []) next a := by
            intro hr
            have he := hReach_empty hr (hget_hset_self _ next [])
            omega
          rw [walkApply_frame (k2 :: rest) _ (next + 1) next v a (by omega) hnr3]
          rw [hget_hset_other _ a next [] (by omega)]
          exact hget_hset_other h a cur _ hcura

/-- The fresh-intermediate step of the walk composed with its frame: used
when the walked key does not hold a dict reference. -/
theorem walkApply_fresh_frame (h : Heap) (next cur : Nat) (o2 : HObj)
    (k2 : String) (rest : List String) (v : HVal) (a : Nat)
    (ha : a < next) (hacur : cur ≠ a) :
    hget (walkApply (hset (hset h cur o2) next []) (next + 1) next
      (k2 :: rest) v).1 a = hget h a := by
  have hnr3 : ¬ HReach (hset (hset h cur o2) next []) next a := by
    intro hr
    have he := hReach_empty hr (hget_hset_self _ next [])
    omega
  rw [walkApply_frame (k2 :: rest) _ (next + 1) next v a (by omega) hnr3]
  rw [hget_hset_other _ a next [] (by omega)]
  exact hget_hset_other h a cur o2 hacur

theorem objLookup_objSet_self (o : HObj) (k : String) (v : HVal) :
    objLookup (objSet o k v) k = some v := by
  induction o with
  | nil => simp [objSet, objLookup]
  | cons kv rest ih =>
    rcases kv with ⟨k2, v2⟩
    by_cases h2 : k2 = k <;> simp [objSet, objLookup, h2, ih]

mutual
theorem allocValue_le : ∀ (v : Value) (h : Heap) (next : Nat),
    next ≤ (allocValue h next v).2.2
  | .null, _, _ => le_refl _
  | .bool _, _, _ => le_refl _
  | .int _, _, _ => le_refl _
  | .str _, _, _ => le_refl _
  | .seq _, _, _ => le_refl _
  | .map m, h, next => by
      simp only [allocValue]
      exact le_trans (Nat.le_succ next) (allocMap_le m h (next + 1))

theorem allocMap_le : ∀ (m : VMap) (h : Heap) (next : Nat),
    next ≤ (allocMap h next m).2.2
  | .nil, _, _ => le_refl _
  | .cons k v rest, h, next => by
      simp only [allocMap]
      exact le_trans (allocValue_le v h next)
        (allocMap_le rest (allocValue h next v).1 (allocValue h next v).2.2)
end

mutual
theorem allocValue_frame : ∀ (v : Value) (h : Heap) (next a : Nat), a < next →
    hget (allocValue h next v).1 a = hget h a
  | .null, _, _, _ => fun _ => rfl
  | .bool _, _, _, _ => fun _ => rfl
  | .int _, _, _, _ => fun _ => rfl
  | .str _, _, _, _ => fun _ => rfl
  | .seq _, _, _, _ => fun _ => rfl
  | .map m, h, next, a => by
      intro ha
      simp only [allocValue]
      rw [hget_hset_other _ a next _ (by omega)]
      exact allocMap_frame m h (next + 1) a (by omega)

theorem allocMap_frame : ∀ (m : VMap) (h : Heap) (next a : Nat), a < next →
    hget (allocMap h next m).1 a = hget h a
  | .nil, _, _, _ => fun _ => rfl
  | .cons k v rest, h, next, a => by
      intro ha
      simp only [allocMap]
      have h1 := allocValue_le v h next
      rw [allocMap_frame rest (allocValue h next v).1 (allocValue h next v).2.2 a
        (by omega)]
      exact allocValue_frame v h next a ha
end

theorem litSeedH_no_root (tv : VMap) (h : Heap) (next root : Nat) (k0 : String)
    (hr : hget h root = none) : litSeedH tv h next root k0 = (h, next) := by
  unfold litSeedH
  rw [hr]

theorem litSeedH_root (tv : VMap) (h : Heap) (next root : Nat) (k0 : String)
    (o : HObj) (hr : hget h root = some o) :
    litSeedH tv h next root k0 =
      litSeedPresent tv h next root k0 o (objLookup o k0) := by
  unfold litSeedH
  rw [hr]

/-- C9: the Baseline (`task_vars`) and extra-vars object graphs are never
mutated by the run.  In the explicit-heap model, `S` is any set of heap
addresses (the Baseline's and extra-vars' dict objects) such that no
non-protected top-level entry of the merge target reaches an address of
`S` — exactly the disjointness that the deep-copy-before-seed pattern
establishes, since a copy's graph is freshly allocated.  First conjunct:
the deep copy itself (`allocValue`, the model of `copy.deepcopy`) leaves
every existing address untouched.  Second conjunct: one literal
application — value allocation, seeding, extra-vars skip, and the in-place
walk — leaves every object of `S` exactly as it was, so later mutation of
the merge target never retroactively alters the Baseline snapshot
(`hostvars_to_update_files_orig` aliases `task_vars` values) used for
diffing. -/
theorem C9_baseline_never_mutated :
    (∀ (v : Value) (h : Heap) (next a : Nat), a < next →
      hget (allocValue h next v).1 a = hget h a) ∧
    (∀ (ev tv : VMap) (lit : Literal) (h : Heap) (next root : Nat)
        (S : List Nat),
      heapClosed h next → root < next →
      (∀ a ∈ S, a < next ∧ a ≠ root) →
      (∀ o k c, hget h root = some o → objLookup o k = some (HVal.ref c) →
        vmLookup k ev = none → ∀ a ∈ S, ¬ HReach h c a) →
      ∀ a ∈ S, hget (litStepH ev tv h next root lit).1 a = hget h a) := by
  constructor
  · exact allocValue_frame
  · intro ev tv lit h next root S hcl hroot hS hsub a haS
    obtain ⟨haN, haR⟩ := hS a haS
    cases hsp : splitDots lit.path with
    | nil =>
      rw [show litStepH ev tv h next root lit = (h, next) from by
        unfold litStepH; rw [hsp]]
    | cons k0 krest =>
      by_cases hev : (vmLookup k0 ev).isSome = true
      · rw [show litStepH ev tv h next root lit = (h, next) from by
          unfold litStepH
          rw [hsp]
          show (if (vmLookup k0 ev).isSome = true then ((h, next) : Heap × Nat)
            else _) = (h, next)
          rw [if_pos hev]]
      · have hev0 : vmLookup k0 ev = none := by
          cases hc : vmLookup k0 ev with
          | none => rfl
          | some x => rw [hc] at hev; exact absurd rfl hev
        have hstep : litStepH ev tv h next root lit =
            walkApply
              (litSeedH tv (allocValue h next lit.value).1
                (allocValue h next lit.value).2.2 root k0).1
              (litSeedH tv (allocValue h next lit.value).1
                (allocValue h next lit.value).2.2 root k0).2
              root (k0 :: krest) (allocValue h next lit.value).2.1 := by
          unfold litStepH
          rw [hsp]
          show (if (vmLookup k0 ev).isSome = true then ((h, next) : Heap × Nat)
            else _) = _
          rw [if_neg hev]
        rw [hstep]
        obtain ⟨hAle, hAframe, hAval, hAfresh⟩ :=
          allocValue_spec lit.value h next (fun b o hg => (hcl b o hg).1)
        have hcl1 : heapClosed (allocValue h next lit.value).1
            (allocValue h next lit.value).2.2 := by
          intro b o2 hg
          by_cases hb : b < next
          · rw [hAframe b hb] at hg
            obtain ⟨hb2, hrefs⟩ := hcl b o2 hg
            refine ⟨by omega, fun kv hkv c hc => ?_⟩
            have := hrefs kv hkv c hc
            omega
          · obtain ⟨hb2, ho2⟩ := hAfresh b o2 (by omega) hg
            refine ⟨hb2, fun kv hkv c hc => ?_⟩
            have hin := ho2 kv hkv
            rw [hc] at hin
            exact hin.2
        have hrootg : hget (allocValue h next lit.value).1 root = hget h root :=
          hAframe root hroot
        cases hgr : hget h root with
        | none =>
          rw [litSeedH_no_root _ _ _ _ _ (by rw [hrootg, hgr])]
          cases krest with
          | nil =>
            rw [walkApply_one_none _ _ _ _ _ (by rw [hrootg, hgr])]
            exact hAframe a haN
          | cons k2 rest2 =>
            rw [walkApply_two_none _ _ _ _ _ _ _ (by rw [hrootg, hgr])]
            exact hAframe a haN
        | some o =>
          have hgro1 : hget (allocValue h next lit.value).1 root = some o := by
            rw [hrootg, hgr]
          rw [litSeedH_root _ _ _ _ _ o hgro1]
          cases hko : objLookup o k0 with
          | some x =>
            simp only [litSeedPresent]
            cases krest with
            | nil =>
              rw [walkApply_one_some _ _ _ _ _ o hgro1]
              rw [hget_hset_other _ a root _ (Ne.symm haR)]
              exact hAframe a haN
            | cons k2 rest2 =>
              rw [walkApply_two_some _ _ _ _ _ _ _ o hgro1]
              cases x with
              | ref c =>
                rw [walkChild_ref _ _ _ o k0 c hko]
                dsimp only
                have hcn : c < next :=
                  (hcl root o hgr).2 (k0, .ref c) (objLookup_mem hko) c rfl
                have hnr1 : ¬ HReach (allocValue h next lit.value).1 c a := by
                  intro hr1
                  refine hsub o k0 c hgr hko hev0 a haS ?_
                  refine hReach_of_agree (fun b hb => hAframe b ?_) a hr1
                  exact hReach_lt hcl c b hcn hb
                rw [walkApply_frame (k2 :: rest2) _ _ c _ a (by omega) hnr1]
                exact hAframe a haN
              | imm w =>
                rw [walkChild_imm _ _ _ o k0 w hko]
                dsimp only
                rw [walkApply_fresh_frame _ _ root _ k2 rest2 _ a (by omega)
                  (Ne.symm haR)]
                exact hAframe a haN
          | none =>
            simp only [litSeedPresent]
            cases htv : vmLookup k0 tv with
            | none =>
              simp only [litSeedAlloc]
              cases krest with
              | nil =>
                rw [walkApply_one_some _ _ _ _ _ o hgro1]
                rw [hget_hset_other _ a root _ (Ne.symm haR)]
                exact hAframe a haN
              | cons k2 rest2 =>
                rw [walkApply_two_some _ _ _ _ _ _ _ o hgro1]
                rw [walkChild_none _ _ _ o k0 hko]
                dsimp only
                rw [walkApply_fresh_frame _ _ root _ k2 rest2 _ a (by omega)
                  (Ne.symm haR)]
                exact hAframe a haN
            | some vtv =>
              simp only [litSeedAlloc]
              obtain ⟨hBle, hBframe, hBval, hBfresh⟩ :=
                allocValue_spec vtv (allocValue h next lit.value).1
                  (allocValue h next lit.value).2.2
                  (fun b o2 hg => (hcl1 b o2 hg).1)
              have hgro2 : hget
                  (hset (allocValue (allocValue h next lit.value).1
                      (allocValue h next lit.value).2.2 vtv).1 root
                    (objSet o k0 (allocValue (allocValue h next lit.value).1
                      (allocValue h next lit.value).2.2 vtv).2.1)) root =
                  some (objSet o k0 (allocValue (allocValue h next lit.value).1
                      (allocValue h next lit.value).2.2 vtv).2.1) :=
                hget_hset_self _ root _
              cases krest with
              | nil =>
                rw [walkApply_one_some _ _ _ _ _ _ hgro2]
                rw [hget_hset_other _ a root _ (Ne.symm haR)]
                rw [hget_hset_other _ a root _ (Ne.symm haR)]
                rw [hBframe a (by omega)]
                exact hAframe a haN
              | cons k2 rest2 =>
                rw [walkApply_two_some _ _ _ _ _ _ _ _ hgro2]
                cases hsv : (allocValue (allocValue h next lit.value).1
                    (allocValue h next lit.value).2.2 vtv).2.1 with
                | ref c =>
                  have hos : objLookup (objSet o k0 (HVal.ref c)) k0 =
                      some (HVal.ref c) := objLookup_objSet_self o k0 (HVal.ref c)
                  rw [walkChild_ref _ _ _ _ k0 c hos]
                  dsimp only
                  have hcf : (allocValue h next lit.value).2.2 ≤ c ∧
                      c < (allocValue (allocValue h next lit.value).1
                        (allocValue h next lit.value).2.2 vtv).2.2 := by
                    have hin := hBval
                    rw [hsv] at hin
                    exact hin
                  have hnr2 : ¬ HReach
                      (hset (allocValue (allocValue h next lit.value).1
                          (allocValue h next lit.value).2.2 vtv).1 root
                        (objSet o k0 (HVal.ref c))) c a := by
                    intro hr
                    have hreg : ∀ b, ((allocValue h next lit.value).2.2 ≤ b ∧
                        b < (allocValue (allocValue h next lit.value).1
                          (allocValue h next lit.value).2.2 vtv).2.2) →
                        ∀ ob, hget (hset (allocValue
                            (allocValue h next lit.value).1
                            (allocValue h next lit.value).2.2 vtv).1 root
                          (objSet o k0 (HVal.ref c))) b = some ob →
                        ∀ k3 c3, (k3, HVal.ref c3) ∈ ob →
                        ((allocValue h next lit.value).2.2 ≤ c3 ∧
                          c3 < (allocValue (allocValue h next lit.value).1
                            (allocValue h next lit.value).2.2 vtv).2.2) := by
                      intro b hb ob hg k3 c3 hm
                      rw [hget_hset_other _ b root _ (by omega)] at hg
                      obtain ⟨_, hob⟩ := hBfresh b ob hb.1 hg
                      exact hob (k3, .ref c3) hm
                    have := hReach_region _ hreg c a hcf hr
                    omega
                  rw [walkApply_frame (k2 :: rest2) _ _ c _ a (by omega) hnr2]
                  rw [hget_hset_other _ a root _ (Ne.symm haR)]
                  rw [hBframe a (by omega)]
                  exact hAframe a haN
                | imm w =>
                  have hos : objLookup (objSet o k0 (HVal.imm w)) k0 =
                      some (HVal.imm w) := objLookup_objSet_self o k0 (HVal.imm w)
                  rw [walkChild_imm _ _ _ _ k0 w hos]
                  dsimp only
                  rw [walkApply_fresh_frame _ _ root _ k2 rest2 _ a (by omega)
                    (Ne.symm haR)]
                  rw [hget_hset_other _ a root _ (Ne.symm haR)]
                  rw [hBframe a (by omega)]
                  exact hAframe a haN

/-- Witness for C9 at a concrete heap: root dict `0` holds `x ↦ ref 1`
(object `1` empty), the Baseline object lives at address `5`, and the
literal `x.y = 7` is applied. -/
theorem C9_baseline_never_mutated_witness :
    hget (allocValue [(0, ([] : HObj))] 1 (.int 5)).1 0 =
      hget [(0, ([] : HObj))] 0 ∧
    hget (litStepH .nil .nil
        [(0, [("x", HVal.ref 1)]), (1, []), (5, [("s", HVal.imm (.int 3))])]
        6 0 ⟨"x.y", .int 7⟩).1 5 =
      hget [(0, [("x", HVal.ref 1)]), (1, []), (5, [("s", HVal.imm (.int 3))])] 5 := by
  constructor
  · exact C9_baseline_never_mutated.1 (.int 5) [(0, ([] : HObj))] 1 0 (by decide)
  · refine C9_baseline_never_mutated.2 .nil .nil ⟨"x.y", .int 7⟩
      [(0, [("x", HVal.ref 1)]), (1, []), (5, [("s", HVal.imm (.int 3))])]
      6 0 [5] ?_ (by decide) (by decide) ?_ 5 (by decide)
    · intro b o hg
      have hb : b = 0 ∨ b = 1 ∨ b = 5 := by
        by_contra hbc
        push_neg at hbc
        obtain ⟨h0, h1, h5⟩ := hbc
        simp [hget, Ne.symm h0, Ne.symm h1, Ne.symm h5] at hg
      rcases hb with hb | hb | hb
      · subst hb
        simp [hget] at hg
        subst hg
        refine ⟨by omega, ?_⟩
        intro kv hkv c hc
        simp at hkv
        subst hkv
        simp at hc
        omega
      · subst hb
        simp [hget] at hg
        subst hg
        refine ⟨by omega, ?_⟩
        intro kv hkv c hc
        simp at hkv
      · subst hb
        simp [hget] at hg
        subst hg
        refine ⟨by omega, ?_⟩
        intro kv hkv c hc
        simp at hkv
        subst hkv
        simp at hc
    · intro o k c hg hk hkev a ha
      simp [hget] at hg
      rw [← hg] at hk
      simp only [objLookup] at hk
      by_cases hxk : "x" = k
      · rw [if_pos hxk] at hk
        injection hk with hk2
        injection hk2 with hk3
        have ha5 : a = 5 := by simpa using ha
        subst ha5
        rw [← hk3]
        intro hr
        have he := hReach_empty hr (by rfl)
        omega
      · rw [if_neg hxk] at hk
        exact Option.noConfusion hk
